import Mathlib

/-!
# Verification of the fcdb storage/query substrate

Shallow embedding of the Rust sources of `fcdb` (crates `fcdb-core`,
`fcdb-cas`, `fcdb-concur`, `fcdb-graph`, `fcdb-exec`) and proofs settling
the claims of the specification against them.

Modelling conventions, used throughout:
* machine integers (`u8/u16/u32/u64`) are `Nat`; wrapping is irrelevant for
  every operation embedded here except byte extraction, where `% 256` is
  explicit;
* `f32`/`f64` quantities that only ever hold small integer counts (search
  scores: sums of `1.0`) are `Nat`; `f64` latencies are `ℚ` with `f64::INFINITY`
  modelled as `Option.none` (exactly the distinctions the control flow reads);
* Rust `HashMap` is an association list with unique keys; where a theorem
  needs key uniqueness it is an explicit hypothesis.  `HashMap` iteration
  order (unspecified in Rust) is the list order, or an explicit permutation
  parameter where a claim depends on it;
* `BTreeMap` is a key-sorted association list; `range(..=t).next_back()` is
  the last entry of the `≤ t` filtered list;
* a Bloom filter is modelled as the exact set of inserted keys (the code's
  behaviour with no false positives); the refuted claims below fail even in
  this idealised case;
* file I/O always succeeds; a pack file is a byte list; randomness
  (`rand::random`, `choose`) is an explicit parameter;
* the BLAKE3 hash `Cid::hash` is an explicit function parameter wherever a
  result depends on it: every theorem taking it holds for an arbitrary
  function, and witnesses instantiate it with a concrete one.
-/

namespace FCDB

/-- `fcdb_core::Cid`: a 32-byte content identifier.  The byte array is a
`List Nat`; the length-32 invariant is never read by the embedded code. -/
structure Cid where
  bytes : List Nat
deriving DecidableEq, Repr

/-- `fcdb_core::Cap`: a CHERI-style capability `⟨base, len, perms, proof⟩`
(`u64`, `u64`, `u32`, `[u8; 16]`). -/
structure Cap where
  base : Nat
  len : Nat
  perms : Nat
  proof : List Nat
deriving DecidableEq, Repr

/-- `fcdb_concur::perms::READ`. -/
def permsREAD : Nat := 1

/-- `fcdb_concur::perms::WRITE`. -/
def permsWRITE : Nat := 2

/-- `fcdb_concur::perms::EXECUTE`. -/
def permsEXECUTE : Nat := 4

/-- `Cap::has_perm`: `(self.perms & perm) != 0`. -/
def Cap.has_perm (c : Cap) (perm : Nat) : Bool :=
  Nat.land c.perms perm != 0

/-- `fcdb_concur::CapCid`: a capability paired with a content id. -/
structure CapCid where
  cap : Cap
  cid : Cid
deriving DecidableEq, Repr

/-- `fcdb_concur::OwnedCapCid<T>`: an owned `(CapCid, data)` pair. -/
structure OwnedCapCid (T : Type) where
  capCid : CapCid
  data : T

/-- `OwnedCapCid::cap_flat_map`: runs `f` on the data and composes the two
capabilities exactly as the source does — `base = max`, `len = min` of the two
`len` fields, `perms = bitand`, `proof` kept from the inner value; the inner
`cid` is kept. -/
def OwnedCapCid.cap_flat_map {T U : Type} (o : OwnedCapCid T)
    (f : T → OwnedCapCid U) : OwnedCapCid U :=
  let inner := f o.data
  let composed : Cap :=
    { base := max inner.capCid.cap.base o.capCid.cap.base
      len := min inner.capCid.cap.len o.capCid.cap.len
      perms := Nat.land inner.capCid.cap.perms o.capCid.cap.perms
      proof := inner.capCid.cap.proof }
  { capCid := { cap := composed, cid := inner.capCid.cid }, data := inner.data }

/-- Modelled from the spec's words (for comparison with the source's
`cap_flat_map`): the capability meet `C₁ ⊓ C₂` has `base = max b₁ b₂`,
`length = min (b₁+l₁) (b₂+l₂) − max b₁ b₂` (range intersection) and
`perms = p₁ ∧ p₂`. -/
def capMeetSpec (c1 c2 : Cap) : Cap :=
  { base := max c1.base c2.base
    len := min (c1.base + c1.len) (c2.base + c2.len) - max c1.base c2.base
    perms := Nat.land c1.perms c2.perms
    proof := c2.proof }

/-! ## CRC32 and the content-index record (`fcdb-cas`) -/
/-- One bit-round of the reflected CRC-32 (polynomial `0xEDB88320`), as
computed by the `crc32fast` crate used in `CidxRec`. -/
def crc32Round (c : Nat) : Nat :=
  if c % 2 = 1 then Nat.xor (c / 2) 0xEDB88320 else c / 2

/-- Fold one byte into a CRC-32 state. -/
def crc32Byte (crc b : Nat) : Nat :=
  (List.range 8).foldl (fun c _ => crc32Round c) (Nat.xor crc (b % 256))

/-- CRC-32 (IEEE, reflected) of a byte list: the checksum `crc32fast`
produces from the same `update` sequence. -/
def crc32 (data : List Nat) : Nat :=
  Nat.xor (data.foldl crc32Byte 0xFFFFFFFF) 0xFFFFFFFF

/-- Little-endian byte encoding of `v` on `n` bytes (`to_le_bytes`). -/
def leBytes (n v : Nat) : List Nat :=
  (List.range n).map (fun i => v / 2 ^ (8 * i) % 256)

/-- `fcdb_cas::CidxRec`: the 64-byte content-index record. -/
structure CidxRec where
  cid : List Nat
  pack_id : Nat
  offset : Nat
  len : Nat
  kind : Nat
  flags : Nat
  crc : Nat
  pad : List Nat
deriving DecidableEq, Repr

/-- The byte sequence both `CidxRec::new` and `CidxRec::verify_crc` feed to
the CRC hasher: cid bytes, then `pack_id`, `offset`, `len` little-endian,
then `[kind, flags]`. -/
def cidxCrcStream (cid : List Nat) (pack_id offset len kind flags : Nat) :
    List Nat :=
  cid ++ leBytes 4 pack_id ++ leBytes 8 offset ++ leBytes 4 len ++ [kind, flags]

/-- `CidxRec::new`: builds the record and stores the CRC-32 of the other
fields. -/
def CidxRec.new (cid : Cid) (pack_id offset len kind flags : Nat) : CidxRec :=
  { cid := cid.bytes
    pack_id := pack_id
    offset := offset
    len := len
    kind := kind
    flags := flags
    crc := crc32 (cidxCrcStream cid.bytes pack_id offset len kind flags)
    pad := List.replicate 10 0 }

/-- `CidxRec::verify_crc`: recomputes the CRC-32 over the stored fields and
compares it with the stored checksum. -/
def CidxRec.verify_crc (r : CidxRec) : Bool :=
  crc32 (cidxCrcStream r.cid r.pack_id r.offset r.len r.kind r.flags) == r.crc

/-! ## Transactions (`fcdb-concur`) -/
/-- `fcdb_concur::ConcurError`. -/
inductive ConcurError where
  | CapCheckFailed
  | OwnershipViolation
  | TransactionConflict
  | LeaseExpired
  | PermissionDenied
deriving DecidableEq, Repr

/-- `fcdb_concur::Transaction`, with the fields `check_write_perm` reads.
An owned resource is kept as its `CapCid` (the boxed payload is opaque to the
permission check); a borrowed resource's `Arc<RwLock<CapCid>>` is its
`CapCid`. -/
structure Transaction where
  id : Nat
  owned_resources : List CapCid
  borrowed_resources : List CapCid
  timeout_ms : Nat
deriving Repr

/-- One of `check_write_perm`'s two scan loops: the first entry whose `cid`
matches the target decides the outcome (`Ok` with WRITE, `PermissionDenied`
without); `none` when no entry matches. -/
def checkScan : List CapCid → Cid → Option (Except ConcurError Unit)
  | [], _ => none
  | c :: rest, target =>
    if c.cid = target then
      some (if c.cap.has_perm permsWRITE then .ok () else .error .PermissionDenied)
    else checkScan rest target

/-- `Transaction::check_write_perm`: scan owned resources, then borrowed
resources, with an early return at the first `cid` match; `PermissionDenied`
when nothing matches. -/
def Transaction.check_write_perm (t : Transaction) (target : Cid) :
    Except ConcurError Unit :=
  match checkScan t.owned_resources target with
  | some r => r
  | none =>
    match checkScan t.borrowed_resources target with
    | some r => r
    | none => .error .PermissionDenied

/-! ## The ε-greedy plan switcher (`fcdb-exec`) -/
/-- `fcdb_exec::QueryPlan`. -/
inductive QueryPlan where
  | PathFirst (path : List String)
  | TypeFirst (types : List String)
  | MeetInMiddle (split : String)
  | IndexLookup (index : String)
deriving DecidableEq, Repr

/-- `fcdb_exec::PlanStats`: one recorded observation.  `execution_time_ms`
is an `f64` modelled exactly over `ℚ`. -/
structure PlanStats where
  plan : QueryPlan
  execution_time_ms : ℚ
  result_count : Nat
  success : Bool
  timestamp : Nat

/-- `fcdb_exec::PlanSwitcher`: per-query-key statistics plus the
exploration rate. -/
structure PlanSwitcher where
  plan_stats : List (String × List PlanStats)
  epsilon : ℚ
  plan_timeout_ms : Nat

/-- Association-list lookup standing in for `HashMap::get`. -/
def lookupA {κ β : Type _} [DecidableEq κ] : List (κ × β) → κ → Option β
  | [], _ => none
  | p :: rest, k => if p.1 = k then some p.2 else lookupA rest k

/-- `PlanSwitcher::plan_key`: the string key the switcher derives from a
plan. -/
def planKey : QueryPlan → String
  | .PathFirst path => "path_first_" ++ String.intercalate "_" path
  | .TypeFirst types => "type_first_" ++ String.intercalate "_" types
  | .MeetInMiddle split => "meet_middle_" ++ split
  | .IndexLookup index => "index_lookup_" ++ index

/-- `PlanSwitcher::average_time_for_plan`: mean execution time over the
successful observations of one plan; `none` models the `f64::INFINITY`
returned when there are none. -/
def averageTimeForPlan (key : String) (all_stats : List PlanStats) :
    Option ℚ :=
  let plan_stats := all_stats.filter (fun s => planKey s.plan == key && s.success)
  if plan_stats.isEmpty then none
  else some ((plan_stats.map (·.execution_time_ms)).sum / plan_stats.length)

/-- The `avg_time < best_time` comparison with `none` as `INFINITY`
(`x < ∞` is true for finite `x`; `∞ < x` is false). -/
def ltInf : Option ℚ → Option ℚ → Bool
  | some a, some b => a < b
  | some _, none => true
  | none, _ => false

/-- `PlanSwitcher::select_best_plan` on a nonempty plan list
`p0 :: rest`: with no statistics for the key, the first plan; otherwise the
fold the source's loop performs, starting from `(plans[0], INFINITY)` and
replacing the best on a strict improvement. -/
def selectBestPlan (sw : PlanSwitcher) (query_key : String)
    (p0 : QueryPlan) (rest : List QueryPlan) : QueryPlan :=
  match lookupA sw.plan_stats query_key with
  | none => p0
  | some stats =>
    ((p0 :: rest).foldl
      (fun acc plan =>
        let avg := averageTimeForPlan (planKey plan) stats
        if ltInf avg acc.2 then (plan, avg) else acc)
      (p0, (none : Option ℚ))).1

/-- `PlanSwitcher::select_plan`.  The two random draws are explicit
parameters: `explore` is `rand::random::<f64>() < self.epsilon`, and
`randIdx` drives `choose` (an index reduced mod the list length).  An empty
plan list returns the `PathFirst(vec![])` default. -/
def selectPlan (sw : PlanSwitcher) (query_key : String)
    (available_plans : List QueryPlan) (explore : Bool) (randIdx : Nat) :
    QueryPlan :=
  match available_plans with
  | [] => .PathFirst []
  | p0 :: rest =>
    if explore then
      (p0 :: rest).get ⟨randIdx % (rest.length + 1), by
        simp [Nat.mod_lt, Nat.succ_pos]⟩
    else selectBestPlan sw query_key p0 rest

/-! ## The pack CAS (`fcdb-cas`)

`PackCAS::put`/`get` embedded over a pure state: pack files are byte lists,
the multi-level Bloom filter is the exact set of inserted cids (`put` and
`get` only ever query it with `contains(cid, None, None)`, i.e. the global
level), and file I/O always succeeds.  `io::Error` values are named by the
situation that raises them; note the source has no `PackFull` error at
all. -/
/-- `fcdb_cas::PackBand`. -/
inductive PackBand where
  | Small
  | Index
  | Blob
deriving DecidableEq, Repr

/-- `PACK_SIZE_TARGET`: 256 MiB. -/
def PACK_SIZE_TARGET : Nat := 256 * 1024 * 1024

/-- `PACK_SIZE_MAX`: 512 MiB (declared in the source and never read). -/
def PACK_SIZE_MAX : Nat := 512 * 1024 * 1024

/-- `fcdb_cas::PackMeta`. -/
structure PackMeta where
  id : Nat
  band : PackBand
  size : Nat
  object_count : Nat
  created_at : Nat
deriving DecidableEq, Repr

/-- `fcdb_cas::PackWriter`, minus the file handle (the file's bytes live in
`CASState.pack_files`). -/
structure PackWriter where
  pack_id : Nat
  current_offset : Nat
  band : PackBand
deriving DecidableEq, Repr

/-- The `io::Error`s the embedded `PackCAS` paths can produce. -/
inductive IoErr where
  | NotFound
  | NoCurrentPackWriter
deriving DecidableEq, Repr

/-- `fcdb_cas::PackCAS` state: writer slot, pack metadata map, the pack
files' bytes (`pack_{id:08}.dat`), the content-index records (`cidx.dat`),
the Bloom set, and the next pack id. -/
structure CASState where
  current_pack : Option PackWriter
  packs : List (Nat × PackMeta)
  pack_files : List (Nat × List Nat)
  cidx : List CidxRec
  bloom : List Cid
  next_pack_id : Nat
deriving DecidableEq, Repr

/-- `PackCAS::open` on an empty directory. -/
def freshCAS : CASState :=
  { current_pack := none, packs := [], pack_files := [], cidx := [],
    bloom := [], next_pack_id := 0 }

/-- Append bytes to the pack file with the given id. -/
def appendToFile (files : List (Nat × List Nat)) (pid : Nat)
    (data : List Nat) : List (Nat × List Nat) :=
  files.map (fun p => if p.1 = pid then (p.1, p.2 ++ data) else p)

/-- `PackCAS::ensure_pack_writer`: opens a fresh pack (new id, empty file,
metadata entry, offset 0) when no writer is active.  `created_at` (wall
clock, never read by the claims) is 0. -/
def ensurePackWriter (s : CASState) (band : PackBand) : CASState :=
  match s.current_pack with
  | some _ => s
  | none =>
    let pid := s.next_pack_id
    { s with
      current_pack := some ⟨pid, 0, band⟩
      next_pack_id := pid + 1
      pack_files := s.pack_files ++ [(pid, [])]
      packs := s.packs ++ [(pid, ⟨pid, band, 0, 0, 0⟩)] }

/-- `PackCAS::put`: Bloom dedup check, ensure a writer, append the raw bytes
at the current offset, append a cidx record, insert into the Bloom set, and
close (null) the writer when the offset reached the 256 MiB target.  `hash`
is `Cid::hash` (BLAKE3), an explicit parameter. -/
def PackCAS.put (hash : List Nat → Cid) (s : CASState) (data : List Nat)
    (kind : Nat) (band : PackBand) : CASState × Except IoErr Cid :=
  let cid := hash data
  if cid ∈ s.bloom then (s, .ok cid)
  else
    let s1 := ensurePackWriter s band
    match s1.current_pack with
    | none => (s1, .error .NoCurrentPackWriter)
    | some w =>
      let offset := w.current_offset
      let pid := w.pack_id
      let s2 := { s1 with
        pack_files := appendToFile s1.pack_files pid data
        current_pack := some { w with current_offset := offset + data.length } }
      let record := CidxRec.new cid pid offset data.length kind 0
      let s3 := { s2 with cidx := s2.cidx ++ [record], bloom := cid :: s2.bloom }
      let s4 := if PACK_SIZE_TARGET ≤ offset + data.length then
          { s3 with current_pack := none }
        else s3
      (s4, .ok cid)

/-- The linear pack scan `PackCAS::get` performs: read each listed pack's
whole file and return `data[32..]` if the first 32 bytes equal the cid. -/
def getScan (files : List (Nat × List Nat)) (cid : Cid) :
    List (Nat × PackMeta) → Except IoErr (List Nat)
  | [] => .error .NotFound
  | (pid, _) :: rest =>
    match lookupA files pid with
    | none => .error .NotFound
    | some data =>
      if 32 < data.length ∧ data.take 32 = cid.bytes then .ok (data.drop 32)
      else getScan files cid rest

/-- `PackCAS::get`: Bloom check, then the linear scan over the packs. -/
def PackCAS.get (s : CASState) (cid : Cid) : Except IoErr (List Nat) :=
  if cid ∈ s.bloom then getScan s.pack_files cid s.packs
  else .error .NotFound

/-! ## The graph store (`fcdb-graph`) -/
/-- `fcdb_graph::Rid`: a graph node id (`u64`). -/
structure Rid where
  val : Nat
deriving DecidableEq, Repr

/-- `fcdb_graph::LabelId`: an edge label (`u32`). -/
structure LabelId where
  val : Nat
deriving DecidableEq, Repr

/-- `fcdb_graph::AdjEntry`: one adjacency-list entry.  `Timestamp(u64)` is a
`Nat`. -/
structure AdjEntry where
  target : Rid
  label : LabelId
  properties : Cid
  timestamp : Nat
deriving DecidableEq, Repr

/-- `fcdb_graph::Posting`: one posting-list entry. -/
structure Posting where
  term : String
  rid : Rid
  positions : List Nat
  timestamp : Nat
deriving DecidableEq, Repr

/-- `fcdb_graph::GraphDB` state: the maps behind its `RwLock`s.  `HashMap`s
are association lists; the `BTreeMap` timelines are key-ascending lists. -/
structure GraphState where
  rid_to_cid : List (Rid × Cid)
  temporal_rid_mappings : List (Rid × List (Nat × Cid))
  adjacency : List (Rid × List AdjEntry)
  reverse_adjacency : List (Rid × List AdjEntry)
  postings : List (String × List Posting)
  current_timestamp : Nat

/-- ASCII whitespace (the fragment of Rust's `char::is_whitespace` the
claims exercise). -/
def isWsChar (c : Char) : Bool :=
  c = ' ' ∨ c = '\t' ∨ c = '\n' ∨ c = '\r'

/-- ASCII case folding (the fragment of Rust's `to_lowercase` the claims
exercise). -/
def asciiLower (c : Char) : Char :=
  if 'A' ≤ c ∧ c ≤ 'Z' then Char.ofNat (c.toNat + 32) else c

/-- `str::to_lowercase`. -/
def toLowerStr (s : String) : String :=
  ⟨s.data.map asciiLower⟩

/-- `str::split_whitespace`: maximal nonempty chunks between whitespace. -/
def splitWhitespace (s : String) : List String :=
  ((s.data.splitOnP isWsChar).map (fun cs => String.mk cs)).filter
    (fun w => w ≠ "")

/-- `postings.entry(key).or_insert_with(Vec::new).push(posting)`. -/
def pushPosting (ps : List (String × List Posting)) (key : String)
    (posting : Posting) : List (String × List Posting) :=
  match lookupA ps key with
  | some _ => ps.map (fun p => if p.1 = key then (p.1, p.2 ++ [posting]) else p)
  | none => ps ++ [(key, [posting])]

/-- `GraphDB::index_text`: tokenize on whitespace, fold each token to lower
case, and append one posting per token occurrence (ordinal position). -/
def indexText (ps : List (String × List Posting)) (rid : Rid)
    (text : String) (ts : Nat) : List (String × List Posting) :=
  (splitWhitespace text).enum.foldl
    (fun acc pw =>
      pushPosting acc (toLowerStr pw.2)
        { term := toLowerStr pw.2, rid := rid, positions := [pw.1],
          timestamp := ts })
    ps

/-- The score accumulation of `GraphDB::search`:
`*results.entry(post.rid).or_insert(0.0) += 1.0`, over an association list in
insertion order.  Scores are exact small counts, so the `f32` is a `Nat`. -/
def tallyScores (posts : List Posting) : List (Rid × Nat) :=
  posts.foldl
    (fun acc post =>
      match lookupA acc post.rid with
      | some _ => acc.map (fun p => if p.1 = post.rid then (p.1, p.2 + 1) else p)
      | none => acc ++ [(post.rid, 1)])
    []

/-- `GraphDB::search`: look up the posting list for the query string AS
GIVEN (the source does not lowercase it), tally one point per posting, then
`sort_by(|a, b| b.1.partial_cmp(&a.1))` — a stable descending sort by score.
`hashOrder` is the `HashMap::into_iter` order, unspecified in Rust, hence an
explicit parameter (a permutation). -/
def GraphDB.search (g : GraphState)
    (hashOrder : List (Rid × Nat) → List (Rid × Nat)) (query : String) :
    List (Rid × Nat) :=
  let results :=
    match lookupA g.postings query with
    | some posts => tallyScores posts
    | none => []
  (hashOrder results).mergeSort (fun a b => b.2 ≤ a.2)

/-- The number of postings carrying `r` — the term frequency `search`
accumulates for node `r`. -/
def countRid (posts : List Posting) (r : Rid) : Nat :=
  (posts.filter (fun p => p.rid = r)).length

/-- `BTreeMap::range(..=t).next_back()`: the last entry of the ascending
key-sorted timeline whose key is at most `t`. -/
def timelineLastLE (tl : List (Nat × Cid)) (t : Nat) : Option (Nat × Cid) :=
  (tl.filter (fun p => p.1 ≤ t)).getLast?

/-- The cid-selection block of `GraphDB::get_node_at`: the most recent
timeline cid valid at `as_of`, `none` for an unknown node or an empty
range. -/
def getNodeAtCid (g : GraphState) (rid : Rid) (asOf : Nat) : Option Cid :=
  match lookupA g.temporal_rid_mappings rid with
  | some timeline => (timelineLastLE timeline asOf).map (·.2)
  | none => none

/-- `GraphDB::get_node_at`: the selected cid is fetched from the CAS (whose
`get` is the explicit `casGet` parameter; its error propagates), and no
selected cid returns `Ok(None)`. -/
def GraphDB.get_node_at (g : GraphState)
    (casGet : Cid → Except IoErr (List Nat)) (rid : Rid) (asOf : Nat) :
    Except IoErr (Option (List Nat)) :=
  match getNodeAtCid g rid asOf with
  | some cid => (casGet cid).map some
  | none => .ok none

/-! ## Query keys and the manifest (`fcdb-core`) -/
/-- `fcdb_core::QKey`: the five-component query fingerprint. -/
structure QKey where
  path_sig : Cid
  class_sig : Cid
  as_of : Nat
  cap_region : Nat × Nat
  type_part : Nat
deriving DecidableEq, Repr

/-- `fcdb_core::ManifestEntry`. -/
structure ManifestEntry where
  qkey : QKey
  result_cid : Cid
  last_accessed : Nat
  access_count : Nat
deriving DecidableEq, Repr

/-- `fcdb_core::ManifestDiff`. -/
structure ManifestDiff where
  version : Nat
  timestamp : Nat
  added : List ManifestEntry
  removed : List QKey
  updated : List (QKey × Cid)
deriving DecidableEq, Repr

/-- `fcdb_core::Manifest`: live entry table (a `HashMap`, modelled as an
association list) plus the applied-diff log. -/
structure Manifest where
  base_version : Nat
  entries : List (QKey × ManifestEntry)
  diffs : List ManifestDiff
deriving Repr

/-- `HashMap::insert`: replace in place when the key is present, append
otherwise. -/
def insertA (es : List (QKey × ManifestEntry)) (k : QKey)
    (v : ManifestEntry) : List (QKey × ManifestEntry) :=
  if es.any (fun p => p.1 == k) then
    es.map (fun p => if p.1 = k then (k, v) else p)
  else es ++ [(k, v)]

/-- `apply_diff`'s first loop: `self.entries.remove(qkey)` per removed
key. -/
def removeEntries (es : List (QKey × ManifestEntry)) (rems : List QKey) :
    List (QKey × ManifestEntry) :=
  rems.foldl (fun es k => es.filter (fun p => p.1 ≠ k)) es

/-- `apply_diff`'s second loop: `entry.result_cid = new_cid` through
`get_mut` per updated pair. -/
def updateEntries (es : List (QKey × ManifestEntry))
    (upds : List (QKey × Cid)) : List (QKey × ManifestEntry) :=
  upds.foldl
    (fun es kc =>
      es.map (fun p =>
        if p.1 = kc.1 then (p.1, { p.2 with result_cid := kc.2 }) else p))
    es

/-- `apply_diff`'s third loop: `self.entries.insert(entry.qkey, entry)` per
added entry. -/
def addEntries (es : List (QKey × ManifestEntry))
    (added : List ManifestEntry) : List (QKey × ManifestEntry) :=
  added.foldl (fun es e => insertA es e.qkey e) es

/-- `Manifest::apply_diff`: removals, then updates, then insertions, then
append the diff to the log. -/
def Manifest.apply_diff (m : Manifest) (diff : ManifestDiff) : Manifest :=
  { m with
    entries :=
      addEntries
        (updateEntries (removeEntries m.entries diff.removed) diff.updated)
        diff.added
    diffs := m.diffs ++ [diff] }

/-- `Manifest::get_result`. -/
def Manifest.get_result (m : Manifest) (q : QKey) : Option Cid :=
  (lookupA m.entries q).map (·.result_cid)

/-- `Manifest::create_diff`: added = proposed entries with unknown keys;
removed = live keys absent from the proposal; updated = keys in both whose
result digests differ; version = `base_version + diffs.len() + 1`;
timestamp = wall clock (the explicit `now`). -/
def Manifest.create_diff (m : Manifest)
    (new_entries : List (QKey × ManifestEntry)) (now : Nat) : ManifestDiff :=
  { version := m.base_version + m.diffs.length + 1
    timestamp := now
    added :=
      (new_entries.filter (fun p => lookupA m.entries p.1 = none)).map (·.2)
    removed :=
      (m.entries.filter (fun p => lookupA new_entries p.1 = none)).map (·.1)
    updated :=
      m.entries.filterMap (fun p =>
        match lookupA new_entries p.1 with
        | some ne =>
          if p.2.result_cid ≠ ne.result_cid then some (p.1, ne.result_cid)
          else none
        | none => none) }

/-- Concrete fingerprints for the C5 witness (the spec's manifest-diff
example). -/
def q1C5 : QKey := ⟨⟨[1]⟩, ⟨[2]⟩, 1000, (0, 100), 1⟩

/-- Second concrete fingerprint for the C5 witness. -/
def q2C5 : QKey := ⟨⟨[3]⟩, ⟨[4]⟩, 1000, (0, 100), 2⟩

/-- Live entry `Q₁ → D₁`. -/
def e1C5 : ManifestEntry := ⟨q1C5, ⟨[10]⟩, 1, 1⟩

/-- Proposed entry `Q₁ → D₁'`. -/
def e1xC5 : ManifestEntry := ⟨q1C5, ⟨[11]⟩, 2, 1⟩

/-- Proposed entry `Q₂ → D₂`. -/
def e2C5 : ManifestEntry := ⟨q2C5, ⟨[12]⟩, 2, 1⟩

/-- Live manifest `{Q₁ → D₁}`. -/
def mC5 : Manifest := ⟨0, [(q1C5, e1C5)], []⟩

/-- Proposal `{Q₁ → D₁', Q₂ → D₂}`. -/
def newC5 : List (QKey × ManifestEntry) := [(q1C5, e1xC5), (q2C5, e2C5)]

/-! ## Graph traversal (`GraphDB::traverse`)

The source's `queue` is a `Vec` popped with `Vec::pop` — from the BACK — so
the loop is a depth-first stack traversal.  The stack is modelled head-first:
`pop()` takes the head, and pushing the edge list in order puts the LAST
edge on top, i.e. the reversed filtered edge list is prepended. -/
/-- The edge filter of one traversal expansion: skip edges newer than
`as_of` (when given), then skip labels outside the filter (when given). -/
def edgePass (labels : Option (List LabelId)) (asOf : Option Nat)
    (e : AdjEntry) : Bool :=
  (match asOf with
   | some t => ! decide (t < e.timestamp)
   | none => true) &&
  (match labels with
   | some ls => decide (e.label ∈ ls)
   | none => true)

/-- The traversal loop of `GraphDB::traverse`: pop the top of the stack;
skip it when too deep or already visited; otherwise emit it, and (when
depth allows) push its filtered forward edges — last edge on top. -/
def traverseGo (adj : List (Rid × List AdjEntry))
    (labels : Option (List LabelId)) (maxDepth : Nat) (asOf : Option Nat) :
    List (Rid × Nat) → Finset Rid → List (Rid × Nat)
  | [], _ => []
  | (c, d) :: rest, visited =>
    if h : maxDepth < d ∨ c ∈ visited then
      traverseGo adj labels maxDepth asOf rest visited
    else
      (c, d) :: traverseGo adj labels maxDepth asOf
        ((if d < maxDepth then
            ((((lookupA adj c).getD []).filter (edgePass labels asOf)).map
              (fun e => (e.target, d + 1))).reverse
          else []) ++ rest)
        (insert c visited)
termination_by q v => (((adj.map Prod.fst).toFinset \ v).card, q.length)
decreasing_by
  · exact Prod.Lex.right _ (by simp)
  · have hkey : ∀ (l : List (Rid × List AdjEntry)) (k : Rid)
        (v : List AdjEntry), lookupA l k = some v →
        k ∈ List.map Prod.fst l := by
      intro l
      induction l with
      | nil => intro k v hkv; cases hkv
      | cons p rest2 ih =>
        intro k v hkv
        rw [lookupA] at hkv
        by_cases hp : p.1 = k
        · rw [List.map_cons, hp]
          exact List.mem_cons_self _ _
        · rw [if_neg hp] at hkv
          exact List.mem_cons_of_mem _ (ih k v hkv)
    have hnv : c ∉ visited := fun hv => h (Or.inr hv)
    by_cases hck : c ∈ (adj.map Prod.fst).toFinset
    · apply Prod.Lex.left
      apply Finset.card_lt_card
      rw [Finset.ssubset_iff_of_subset
        (Finset.sdiff_subset_sdiff (Finset.Subset.refl _)
          (Finset.subset_insert _ _))]
      exact ⟨c, Finset.mem_sdiff.mpr ⟨hck, hnv⟩,
        fun hcm => (Finset.mem_sdiff.mp hcm).2 (Finset.mem_insert_self _ _)⟩
    · have hlook : lookupA adj c = none := by
        cases hl : lookupA adj c with
        | none => rfl
        | some v =>
          exact absurd (List.mem_toFinset.mpr (hkey adj c v hl)) hck
      have hsd : (adj.map Prod.fst).toFinset \ insert c visited =
          (adj.map Prod.fst).toFinset \ visited := by
        ext x
        simp only [Finset.mem_sdiff, Finset.mem_insert]
        constructor
        · intro hx
          exact ⟨hx.1, fun hv => hx.2 (Or.inr hv)⟩
        · intro hx
          refine ⟨hx.1, fun hv => ?_⟩
          refine hv.elim (fun he => ?_) (fun he => hx.2 he)
          exact hck (he ▸ hx.1)
      rw [hsd]
      apply Prod.Lex.right
      simp [hlook]

/-- `GraphDB::traverse`: start the loop from `(start, 0)` with an empty
visited set over the forward adjacency. -/
def GraphDB.traverse (g : GraphState) (start : Rid)
    (labels : Option (List LabelId)) (max_depth : Nat)
    (as_of : Option Nat) : List (Rid × Nat) :=
  traverseGo g.adjacency labels max_depth as_of [(start, 0)] ∅

/-- Modelled from the spec's words (for comparison with the source's
`traverse`): BREADTH-first search with a FIFO queue — dequeue from the
front, enqueue the filtered edges in insertion order at the back; same
visited-set, depth-bound and edge filters. -/
def traverseSpecBFS (adj : List (Rid × List AdjEntry))
    (labels : Option (List LabelId)) (maxDepth : Nat) (asOf : Option Nat) :
    List (Rid × Nat) → Finset Rid → List (Rid × Nat)
  | [], _ => []
  | (c, d) :: rest, visited =>
    if h : maxDepth < d ∨ c ∈ visited then
      traverseSpecBFS adj labels maxDepth asOf rest visited
    else
      (c, d) :: traverseSpecBFS adj labels maxDepth asOf
        (rest ++
          (if d < maxDepth then
            (((lookupA adj c).getD []).filter (edgePass labels asOf)).map
              (fun e => (e.target, d + 1))
          else []))
        (insert c visited)
termination_by q v => (((adj.map Prod.fst).toFinset \ v).card, q.length)
decreasing_by
  · exact Prod.Lex.right _ (by simp)
  · have hkey : ∀ (l : List (Rid × List AdjEntry)) (k : Rid)
        (v : List AdjEntry), lookupA l k = some v →
        k ∈ List.map Prod.fst l := by
      intro l
      induction l with
      | nil => intro k v hkv; cases hkv
      | cons p rest2 ih =>
        intro k v hkv
        rw [lookupA] at hkv
        by_cases hp : p.1 = k
        · rw [List.map_cons, hp]
          exact List.mem_cons_self _ _
        · rw [if_neg hp] at hkv
          exact List.mem_cons_of_mem _ (ih k v hkv)
    have hnv : c ∉ visited := fun hv => h (Or.inr hv)
    by_cases hck : c ∈ (adj.map Prod.fst).toFinset
    · apply Prod.Lex.left
      apply Finset.card_lt_card
      rw [Finset.ssubset_iff_of_subset
        (Finset.sdiff_subset_sdiff (Finset.Subset.refl _)
          (Finset.subset_insert _ _))]
      exact ⟨c, Finset.mem_sdiff.mpr ⟨hck, hnv⟩,
        fun hcm => (Finset.mem_sdiff.mp hcm).2 (Finset.mem_insert_self _ _)⟩
    · have hlook : lookupA adj c = none := by
        cases hl : lookupA adj c with
        | none => rfl
        | some v =>
          exact absurd (List.mem_toFinset.mpr (hkey adj c v hl)) hck
      have hsd : (adj.map Prod.fst).toFinset \ insert c visited =
          (adj.map Prod.fst).toFinset \ visited := by
        ext x
        simp only [Finset.mem_sdiff, Finset.mem_insert]
        constructor
        · intro hx
          exact ⟨hx.1, fun hv => hx.2 (Or.inr hv)⟩
        · intro hx
          refine ⟨hx.1, fun hv => ?_⟩
          refine hv.elim (fun he => ?_) (fun he => hx.2 he)
          exact hck (he ▸ hx.1)
      rw [hsd]
      apply Prod.Lex.right
      simp [hlook]

/-- A node is the target of some filter-passing adjacency edge: how every
non-start traversal result was reached. -/
def reachedByEdge (adj : List (Rid × List AdjEntry))
    (labels : Option (List LabelId)) (asOf : Option Nat) (r : Rid) : Prop :=
  ∃ c edges e, lookupA adj c = some edges ∧ e ∈ edges ∧
    edgePass labels asOf e = true ∧ e.target = r

/-- The spec's chain `A→B→C→D` under one label (A,B,C,D = 1,2,3,4). -/
def chainAdj : List (Rid × List AdjEntry) :=
  [(⟨1⟩, [⟨⟨2⟩, ⟨1⟩, ⟨[0]⟩, 5⟩]),
   (⟨2⟩, [⟨⟨3⟩, ⟨1⟩, ⟨[0]⟩, 5⟩]),
   (⟨3⟩, [⟨⟨4⟩, ⟨1⟩, ⟨[0]⟩, 5⟩])]

/-- A branching graph: node 1 with edges to 2 then 3 (insertion order). -/
def branchAdj : List (Rid × List AdjEntry) :=
  [(⟨1⟩, [⟨⟨2⟩, ⟨1⟩, ⟨[0]⟩, 5⟩, ⟨⟨3⟩, ⟨1⟩, ⟨[0]⟩, 5⟩])]

/-! ## Theorems -/

/-- C10: every record built by `CidxRec::new` passes `verify_crc`: the stored
crc32 equals the checksum recomputed over the digest, pack-id, offset,
length, kind and flags of a freshly constructed record. -/
theorem cidxRec_new_verify_crc (cid : Cid)
    (pack_id offset len kind flags : Nat) :
    (CidxRec.new cid pack_id offset len kind flags).verify_crc = true := by
  simp [CidxRec.new, CidxRec.verify_crc]

/-- C2 (the code violates the spec's meet): at the spec's own example
`C₁ = [0,100,RW]` (outer) and `C₂ = [50,100,R]` (inner), `cap_flat_map`
produces the capability `⟨50, 100, R⟩` — `len` is `min l₁ l₂ = 100`, covering
`[50,150)`, which exceeds both the meet `[50,50,R]` demanded by the claim and
the outer capability's range `[0,100)`.  The source's own comment says the
composition is `new_cap ∩ original_cap`, which `min` of lengths is not. -/
theorem cap_flat_map_not_meet :
    (OwnedCapCid.cap_flat_map
        ⟨⟨⟨0, 100, 3, [0]⟩, ⟨[1]⟩⟩, ()⟩
        (fun _ => ⟨⟨⟨50, 100, 1, [0]⟩, ⟨[2]⟩⟩, ()⟩)).capCid.cap =
      ⟨50, 100, 1, [0]⟩ ∧
    capMeetSpec ⟨0, 100, 3, [0]⟩ ⟨50, 100, 1, [0]⟩ = ⟨50, 50, 1, [0]⟩ ∧
    (100 : Nat) ≠ 50 := by
  refine ⟨?_, ?_, by decide⟩ <;> rfl

/-- `checkScan` is `find?` of the first cid match, judged on its WRITE bit. -/
theorem checkScan_eq_find (l : List CapCid) (target : Cid) :
    checkScan l target =
      (l.find? (fun c => c.cid == target)).map
        (fun c => if c.cap.has_perm permsWRITE then .ok () else
          .error ConcurError.PermissionDenied) := by
  induction l with
  | nil => rfl
  | cons c rest ih =>
    by_cases h : c.cid = target
    · simp [checkScan, List.find?, h]
    · have hb : (c.cid == target) = false := by simp [h]
      simp [checkScan, List.find?, h, hb, ih]

/-- C7, counterexample: a transaction owning two entries for the same digest
`D`, the first without WRITE and the second with it.  Some entry matches `D`
and has WRITE, yet `check_write_perm` returns `PermissionDenied` — the first
matching entry alone decides, so the claimed `Ok`-iff-some-match-has-WRITE
fails. -/
theorem check_write_perm_first_match_counterexample :
    (Transaction.check_write_perm
        (⟨1, [⟨⟨0, 10, 1, [0]⟩, ⟨[9]⟩⟩, ⟨⟨0, 10, 2, [0]⟩, ⟨[9]⟩⟩], [], 5000⟩ :
          Transaction)
        ⟨[9]⟩ = .error .PermissionDenied) ∧
    ((([⟨⟨0, 10, 1, [0]⟩, ⟨[9]⟩⟩, ⟨⟨0, 10, 2, [0]⟩, ⟨[9]⟩⟩] :
        List CapCid) ++ []).any
      (fun c => c.cid == (⟨[9]⟩ : Cid) && c.cap.has_perm permsWRITE) = true) := by
  constructor
  · rfl
  · decide

/-- C7, amended: `check_write_perm` scans owned resources first, then
borrowed ones, and the FIRST entry whose cid matches `D` decides: `Ok` iff it
has WRITE; entries after the first match are never consulted, and with no
match the result is `PermissionDenied`.  Equivalently the result is
determined by `find?` on the concatenated scan order, and `Ok` holds iff the
first matching entry has WRITE. -/
theorem check_write_perm_first_match (t : Transaction) (target : Cid) :
    t.check_write_perm target =
      (match (t.owned_resources ++ t.borrowed_resources).find?
          (fun c => c.cid == target) with
       | some c => if c.cap.has_perm permsWRITE then .ok () else
          .error ConcurError.PermissionDenied
       | none => .error ConcurError.PermissionDenied) ∧
    (t.check_write_perm target = .ok () ↔
      ∃ c, (t.owned_resources ++ t.borrowed_resources).find?
          (fun x => x.cid == target) = some c ∧
        c.cap.has_perm permsWRITE = true) := by
  have hmain : t.check_write_perm target =
      (match (t.owned_resources ++ t.borrowed_resources).find?
          (fun c => c.cid == target) with
       | some c => if c.cap.has_perm permsWRITE then .ok () else
          .error ConcurError.PermissionDenied
       | none => .error ConcurError.PermissionDenied) := by
    rw [Transaction.check_write_perm, checkScan_eq_find, checkScan_eq_find,
      List.find?_append]
    cases h : t.owned_resources.find? (fun c => c.cid == target) with
    | none =>
      cases h2 : t.borrowed_resources.find? (fun c => c.cid == target) with
      | none => simp
      | some c => simp
    | some c => simp
  refine ⟨hmain, ?_⟩
  rw [hmain]
  cases h : (t.owned_resources ++ t.borrowed_resources).find?
      (fun c => c.cid == target) with
  | none => simp
  | some c =>
    by_cases hw : c.cap.has_perm permsWRITE = true
    · simp [hw]
    · simp [hw]

/-- C9, counterexample: on the empty plan list, `select_plan` returns the
default `PathFirst([])`, which is not an element of the (empty) list — the
claimed membership `select_plan(Q, P) ∈ P` fails for `P = []`. -/
theorem selectPlan_empty_counterexample :
    selectPlan ⟨[], 1 / 10, 1000⟩ "q" [] false 0 = .PathFirst [] ∧
    QueryPlan.PathFirst [] ∉ ([] : List QueryPlan) := by
  exact ⟨rfl, by simp⟩

/-- The fold inside `select_best_plan` returns either a plan of the folded
list or whatever it started from. -/
theorem selectBestPlan_fold_mem (stats : List PlanStats)
    (l : List QueryPlan) (acc : QueryPlan × Option ℚ) :
    (l.foldl
      (fun acc plan =>
        let avg := averageTimeForPlan (planKey plan) stats
        if ltInf avg acc.2 then (plan, avg) else acc) acc).1 ∈ l ∨
      (l.foldl
        (fun acc plan =>
          let avg := averageTimeForPlan (planKey plan) stats
          if ltInf avg acc.2 then (plan, avg) else acc) acc).1 = acc.1 := by
  induction l generalizing acc with
  | nil => exact Or.inr rfl
  | cons p rest ih =>
    simp only [List.foldl_cons]
    rcases ih (if ltInf (averageTimeForPlan (planKey p) stats) acc.2
        then (p, averageTimeForPlan (planKey p) stats) else acc) with hm | he
    · exact Or.inl (List.mem_cons_of_mem _ hm)
    · by_cases h : ltInf (averageTimeForPlan (planKey p) stats) acc.2 = true
      · rw [he, if_pos h]
        exact Or.inl (List.mem_cons_self _ _)
      · rw [he, if_neg h]
        exact Or.inr rfl

/-- `select_best_plan` always returns a member of the nonempty plan list it
is given. -/
theorem selectBestPlan_mem (sw : PlanSwitcher) (query_key : String)
    (p0 : QueryPlan) (rest : List QueryPlan) :
    selectBestPlan sw query_key p0 rest ∈ p0 :: rest := by
  rw [selectBestPlan]
  cases hst : lookupA sw.plan_stats query_key with
  | none => exact List.mem_cons_self _ _
  | some stats =>
    dsimp only
    rcases selectBestPlan_fold_mem stats (p0 :: rest) (p0, none) with hm | he
    · exact hm
    · rw [he]; exact List.mem_cons_self _ _

/-- C9, amended: on every NONEMPTY plan list `P`, `select_plan(Q, P)` is an
element of `P` — in the exploration branch a uniformly chosen element, in the
exploitation branch either the statistics winner (a fold over `P`) or the
first plan; and with no recorded history for `Q`, the exploitation branch
returns the first enumerated plan.  (The empty list instead returns the
`PathFirst([])` default, which belongs to no list.) -/
theorem selectPlan_mem (sw : PlanSwitcher) (query_key : String)
    (plans : List QueryPlan) (explore : Bool) (randIdx : Nat)
    (hne : plans ≠ []) :
    selectPlan sw query_key plans explore randIdx ∈ plans ∧
      (lookupA sw.plan_stats query_key = none → explore = false →
        some (selectPlan sw query_key plans explore randIdx) = plans.head?) := by
  match plans with
  | [] => exact absurd rfl hne
  | p0 :: rest =>
    constructor
    · simp only [selectPlan]
      by_cases hex : explore = true
      · rw [if_pos hex]
        exact List.get_mem _ _ _
      · rw [if_neg hex]
        exact selectBestPlan_mem sw query_key p0 rest
    · intro hnone hnoex
      simp only [selectPlan, hnoex, if_neg]
      rw [selectBestPlan, hnone]
      rfl

/-- C9 amended, witness: on the concrete two-plan list, with no history and
no exploration, `select_plan` returns the first plan, a member of the
list. -/
theorem selectPlan_mem_witness :
    selectPlan ⟨[], 1 / 10, 1000⟩ "q"
        [QueryPlan.PathFirst ["user"], QueryPlan.TypeFirst ["User"]]
        false 0 ∈
      [QueryPlan.PathFirst ["user"], QueryPlan.TypeFirst ["User"]] ∧
    some (selectPlan ⟨[], 1 / 10, 1000⟩ "q"
        [QueryPlan.PathFirst ["user"], QueryPlan.TypeFirst ["User"]]
        false 0) =
      ([QueryPlan.PathFirst ["user"], QueryPlan.TypeFirst ["User"]]).head? := by
  have h := selectPlan_mem ⟨[], 1 / 10, 1000⟩ "q"
    [QueryPlan.PathFirst ["user"], QueryPlan.TypeFirst ["User"]] false 0
    (by simp)
  exact ⟨h.1, h.2 rfl rfl⟩

/-- C1 (CAS round-trip fails, for EVERY hash function): `put` stores raw
bytes, but `get`'s pack scan looks for a 32-byte cid prefix that `put` never
wrote.  After `put(b)` on a fresh CAS, `put` itself succeeds with the digest
of `b`, yet `get(put(b).digest)` never returns `b`, and for `b` of at most
32 bytes it is definitively `NotFound` — contradicting the round-trip the
crate's own `test_pack_cas_basic` asserts. -/
theorem put_get_roundtrip_fails (hash : List Nat → Cid) (data : List Nat)
    (kind : Nat) (band : PackBand) :
    (PackCAS.put hash freshCAS data kind band).2 = .ok (hash data) ∧
    PackCAS.get (PackCAS.put hash freshCAS data kind band).1 (hash data) ≠
      .ok data ∧
    (data.length ≤ 32 →
      PackCAS.get (PackCAS.put hash freshCAS data kind band).1 (hash data) =
        .error .NotFound) := by
  have hput : PackCAS.put hash freshCAS data kind band =
      (if PACK_SIZE_TARGET ≤ 0 + data.length then
        ({ current_pack := none,
           packs := [(0, ⟨0, band, 0, 0, 0⟩)],
           pack_files := [(0, data)],
           cidx := [CidxRec.new (hash data) 0 0 data.length kind 0],
           bloom := [hash data], next_pack_id := 1 } : CASState)
       else
        ({ current_pack := some ⟨0, data.length, band⟩,
           packs := [(0, ⟨0, band, 0, 0, 0⟩)],
           pack_files := [(0, data)],
           cidx := [CidxRec.new (hash data) 0 0 data.length kind 0],
           bloom := [hash data], next_pack_id := 1 } : CASState),
       .ok (hash data)) := by
    rw [PackCAS.put]
    simp [freshCAS, ensurePackWriter, appendToFile]
  have hgetscan : getScan [(0, data)] (hash data) [(0, ⟨0, band, 0, 0, 0⟩)] ≠
        .ok data ∧
      (data.length ≤ 32 →
        getScan [(0, data)] (hash data) [(0, ⟨0, band, 0, 0, 0⟩)] =
          .error .NotFound) := by
    by_cases h : 32 < data.length ∧ data.take 32 = (hash data).bytes
    · constructor
      · intro hc
        simp [getScan, lookupA, h] at hc
        have hlen := congrArg List.length hc
        have h1 := h.1
        simp at hlen
        omega
      · intro hle
        have h1 := h.1
        omega
    · constructor
      · intro hc
        simp [getScan, lookupA, h] at hc
      · intro hle
        simp [getScan, lookupA, h]
  have hget : ∀ s : CASState, s.bloom = [hash data] →
      s.pack_files = [(0, data)] → s.packs = [(0, ⟨0, band, 0, 0, 0⟩)] →
      PackCAS.get s (hash data) =
        getScan [(0, data)] (hash data) [(0, ⟨0, band, 0, 0, 0⟩)] := by
    intro s h1 h2 h3
    rw [PackCAS.get, h1, h2, h3, if_pos (List.mem_singleton.mpr rfl)]
  constructor
  · rw [hput]
  · constructor
    · rw [hput]
      by_cases h : PACK_SIZE_TARGET ≤ 0 + data.length
      · rw [if_pos h, hget _ rfl rfl rfl]
        exact hgetscan.1
      · rw [if_neg h, hget _ rfl rfl rfl]
        exact hgetscan.1
    · intro hle
      rw [hput]
      by_cases h : PACK_SIZE_TARGET ≤ 0 + data.length
      · rw [if_pos h, hget _ rfl rfl rfl]
        exact hgetscan.2 hle
      · rw [if_neg h, hget _ rfl rfl rfl]
        exact hgetscan.2 hle

/-- C1 witness: at the crate's own test input `b"Hello, PackCAS!"` (and a
concrete hash function), the stored digest is definitively `NotFound` on
read-back. -/
theorem put_get_roundtrip_fails_witness :
    PackCAS.get
        (PackCAS.put (fun _ => ⟨List.replicate 32 0⟩) freshCAS
          [72, 101, 108, 108, 111, 44, 32, 80, 97, 99, 107, 67, 65, 83, 33]
          1 .Small).1
        ((fun _ => (⟨List.replicate 32 0⟩ : Cid))
          [72, 101, 108, 108, 111, 44, 32, 80, 97, 99, 107, 67, 65, 83, 33]) =
      .error .NotFound :=
  (put_get_roundtrip_fails (fun _ => ⟨List.replicate 32 0⟩)
    [72, 101, 108, 108, 111, 44, 32, 80, 97, 99, 107, 67, 65, 83, 33]
    1 .Small).2.2 (by decide)

/-- Helper for C8: the embedded `put` always succeeds, returning the digest
of the data — there is no `PackFull` (or any other) failure path.  (The
`NoCurrentPackWriter` branch is dead: `ensure_pack_writer` always leaves a
writer.) -/
theorem putSndOk (hash : List Nat → Cid) (s : CASState) (data : List Nat)
    (kind : Nat) (band : PackBand) :
    (PackCAS.put hash s data kind band).2 = .ok (hash data) := by
  rw [PackCAS.put]
  by_cases hb : hash data ∈ s.bloom
  · rw [if_pos hb]
  · rw [if_neg hb]
    cases hcp : s.current_pack with
    | some w => simp [ensurePackWriter, hcp]
    | none => simp [ensurePackWriter, hcp]

/-- C8, counterexample: with the open writer already at offset
`PACK_SIZE_MAX − 1`, a 2-byte `put` — whose write crosses the 512 MiB hard
cap — succeeds with the data's digest instead of failing with `PackFull`
(no such error exists anywhere in the source; `PACK_SIZE_MAX` is never
read). -/
theorem put_crosses_hard_cap_ok :
    (PackCAS.put (fun _ => ⟨[0]⟩)
        ({ current_pack := some ⟨0, PACK_SIZE_MAX - 1, .Small⟩,
           packs := [(0, ⟨0, .Small, 0, 0, 0⟩)],
           pack_files := [(0, [])], cidx := [], bloom := [],
           next_pack_id := 1 } : CASState)
        [7, 7] 0 .Small).2 = .ok ⟨[0]⟩ ∧
    PACK_SIZE_MAX < PACK_SIZE_MAX - 1 + 2 := by
  exact ⟨rfl, by decide⟩

/-- C8, amended: `put` never fails — in particular never with `PackFull`,
which the source does not define — and the 512 MiB hard cap is not enforced.
What the code does instead: when a (deduplication-missing) write brings the
writer's offset to the 256 MiB target or beyond, the writer slot is nulled
after the write, so the NEXT `put` (not a retry of a failed one) opens a
fresh pack; that next `put` succeeds like every other. -/
theorem put_no_packfull (hash : List Nat → Cid) (s : CASState)
    (data : List Nat) (kind : Nat) (band : PackBand) :
    (PackCAS.put hash s data kind band).2 = .ok (hash data) ∧
    (∀ w : PackWriter, hash data ∉ s.bloom → s.current_pack = some w →
      PACK_SIZE_TARGET ≤ w.current_offset + data.length →
      ((PackCAS.put hash s data kind band).1.current_pack = none ∧
        ∀ (hash2 : List Nat → Cid) (d2 : List Nat) (k2 : Nat)
          (b2 : PackBand),
          (PackCAS.put hash2 (PackCAS.put hash s data kind band).1
              d2 k2 b2).2 = .ok (hash2 d2))) := by
  refine ⟨putSndOk hash s data kind band, ?_⟩
  intro w hb hcp hfull
  refine ⟨?_, fun hash2 d2 k2 b2 => putSndOk hash2 _ d2 k2 b2⟩
  rw [PackCAS.put, if_neg hb]
  simp [ensurePackWriter, hcp, hfull]

/-- C8 amended, witness: a writer one byte short of the 256 MiB target plus
a 2-byte write: the put succeeds, the writer slot is nulled, and a following
put succeeds. -/
theorem put_no_packfull_witness :
    (PackCAS.put (fun _ => ⟨[0]⟩)
        ({ current_pack := some ⟨0, PACK_SIZE_TARGET - 1, .Small⟩,
           packs := [(0, ⟨0, .Small, 0, 0, 0⟩)],
           pack_files := [(0, [])], cidx := [], bloom := [],
           next_pack_id := 1 } : CASState)
        [7, 7] 0 .Small).1.current_pack = none ∧
    (PackCAS.put (fun _ => ⟨[1]⟩)
        (PackCAS.put (fun _ => ⟨[0]⟩)
          ({ current_pack := some ⟨0, PACK_SIZE_TARGET - 1, .Small⟩,
             packs := [(0, ⟨0, .Small, 0, 0, 0⟩)],
             pack_files := [(0, [])], cidx := [], bloom := [],
             next_pack_id := 1 } : CASState)
          [7, 7] 0 .Small).1
        [8] 2 .Blob).2 = .ok ⟨[1]⟩ := by
  have h := (put_no_packfull (fun _ => ⟨[0]⟩)
    ({ current_pack := some ⟨0, PACK_SIZE_TARGET - 1, .Small⟩,
       packs := [(0, ⟨0, .Small, 0, 0, 0⟩)],
       pack_files := [(0, [])], cidx := [], bloom := [],
       next_pack_id := 1 } : CASState)
    [7, 7] 0 .Small).2 ⟨0, PACK_SIZE_TARGET - 1, .Small⟩
    (by simp) rfl (by decide)
  exact ⟨h.1, h.2 (fun _ => ⟨[1]⟩) [8] 2 .Blob⟩

/-- Looking something up in an association list finds one of its pairs. -/
theorem lookupA_mem {κ β : Type _} [DecidableEq κ] {l : List (κ × β)} {k : κ}
    {v : β} (h : lookupA l k = some v) : (k, v) ∈ l := by
  induction l with
  | nil => cases h
  | cons p rest ih =>
    rw [lookupA] at h
    by_cases hp : p.1 = k
    · rw [if_pos hp] at h
      injection h with h2
      subst h2
      subst hp
      exact List.mem_cons_self _ _
    · rw [if_neg hp] at h
      exact List.mem_cons_of_mem _ (ih h)

/-- A lookup misses exactly when the key is absent. -/
theorem lookupA_eq_none {κ β : Type _} [DecidableEq κ] {l : List (κ × β)}
    {k : κ} : lookupA l k = none ↔ k ∉ l.map Prod.fst := by
  induction l with
  | nil => simp [lookupA]
  | cons p rest ih =>
    rw [lookupA]
    by_cases hp : p.1 = k
    · simp [hp]
    · have hp2 : ¬ k = p.1 := fun h => hp h.symm
      simp [hp, hp2, ih]

/-- A present key has a looked-up value. -/
theorem lookupA_isSome {κ β : Type _} [DecidableEq κ] {l : List (κ × β)}
    {k : κ} : k ∈ l.map Prod.fst ↔ ∃ v, lookupA l k = some v := by
  constructor
  · intro h
    cases hv : lookupA l k with
    | some v => exact ⟨v, rfl⟩
    | none => exact absurd h (lookupA_eq_none.mp hv)
  · intro ⟨v, hv⟩
    exact List.mem_map.mpr ⟨(k, v), lookupA_mem hv, rfl⟩

/-- With unique keys, a member pair is what lookup finds. -/
theorem mem_lookupA_of_nodup {κ β : Type _} [DecidableEq κ]
    (l : List (κ × β)) : ∀ (k : κ) (v : β), (l.map Prod.fst).Nodup →
    (k, v) ∈ l → lookupA l k = some v := by
  induction l with
  | nil => intro k v _ h; cases h
  | cons p rest ih =>
    intro k v hn h
    rw [List.mem_cons] at h
    rw [List.map_cons, List.nodup_cons] at hn
    rcases h with h | h
    · rw [← h, lookupA, if_pos rfl]
    · have hk : k ∈ rest.map Prod.fst :=
        List.mem_map.mpr ⟨(k, v), h, rfl⟩
      have hp : p.1 ≠ k := fun he => hn.1 (he ▸ hk)
      rw [lookupA, if_neg hp]
      exact ih k v hn.2 h

/-- With unique keys, membership and lookup coincide. -/
theorem mem_iff_lookupA {κ β : Type _} [DecidableEq κ] {l : List (κ × β)}
    (hn : (l.map Prod.fst).Nodup) {k : κ} {v : β} :
    (k, v) ∈ l ↔ lookupA l k = some v :=
  ⟨mem_lookupA_of_nodup l k v hn, lookupA_mem⟩

/-- Concatenated association lists look up left-first. -/
theorem lookupA_append {κ β : Type _} [DecidableEq κ] (l1 l2 : List (κ × β))
    (k : κ) :
    lookupA (l1 ++ l2) k =
      (match lookupA l1 k with
       | some v => some v
       | none => lookupA l2 k) := by
  induction l1 with
  | nil => simp [lookupA]
  | cons p rest ih =>
    by_cases hp : p.1 = k
    · simp [lookupA, hp]
    · simp [lookupA, hp, ih]

/-- Bumping every pair keyed `r0` changes only the `r0` lookup, by one. -/
theorem lookupA_bump (acc : List (Rid × Nat)) (r0 r : Rid) :
    lookupA (acc.map (fun p => if p.1 = r0 then (p.1, p.2 + 1) else p)) r =
      if r = r0 then (lookupA acc r).map (· + 1) else lookupA acc r := by
  induction acc with
  | nil => by_cases h : r = r0 <;> simp [lookupA, h]
  | cons p rest ih =>
    by_cases hp : p.1 = r0
    · by_cases hr : r = r0
      · have hpr : p.1 = r := by rw [hp, hr]
        simp [lookupA, hp, hr, hpr, ih]
      · have hr2 : ¬ r0 = r := fun h => hr h.symm
        have hpr : ¬ p.1 = r := by rw [hp]; exact hr2
        simp [lookupA, hp, hr, hr2, hpr, ih]
    · by_cases hpr : p.1 = r
      · have hr : ¬ r = r0 := by rw [← hpr]; exact hp
        simp [lookupA, hp, hpr, hr]
      · simp [lookupA, hp, hpr, ih]

/-- Appending a fresh singleton only adds a fallback for its own key. -/
theorem lookupA_snoc (acc : List (Rid × Nat)) (r0 r : Rid) (n : Nat) :
    lookupA (acc ++ [(r0, n)]) r =
      (match lookupA acc r with
       | some v => some v
       | none => if r = r0 then some n else none) := by
  rw [lookupA_append]
  cases lookupA acc r with
  | some v => rfl
  | none =>
    by_cases h : r = r0
    · simp [lookupA, h]
    · have h2 : ¬ r0 = r := fun hh => h hh.symm
      simp [lookupA, h, h2]

/-- The tally fold computes, for every node, its count of postings on top of
whatever the accumulator already holds. -/
theorem tallyFold_lookup (posts : List Posting) (acc : List (Rid × Nat))
    (r : Rid) :
    lookupA
      (posts.foldl
        (fun acc post =>
          match lookupA acc post.rid with
          | some _ =>
            acc.map (fun p => if p.1 = post.rid then (p.1, p.2 + 1) else p)
          | none => acc ++ [(post.rid, 1)])
        acc) r =
      (match lookupA acc r with
       | some m => some (m + countRid posts r)
       | none =>
         if countRid posts r = 0 then none else some (countRid posts r)) := by
  induction posts generalizing acc with
  | nil =>
    cases h : lookupA acc r with
    | some m => simp [countRid, h]
    | none => simp [countRid, h]
  | cons post rest ih =>
    simp only [List.foldl_cons]
    by_cases hr : r = post.rid
    · have hrs : post.rid = r := hr.symm
      have hcount : countRid (post :: rest) r = countRid rest r + 1 := by
        simp [countRid, List.filter_cons, hrs]
      have har : lookupA acc r = lookupA acc post.rid := by rw [hr]
      cases h : lookupA acc post.rid with
      | some m =>
        dsimp only
        rw [ih, lookupA_bump, if_pos hr, har, h, hcount]
        simp
        omega
      | none =>
        dsimp only
        rw [ih, lookupA_snoc, har, h, hcount]
        simp [hr]
        omega
    · have hcount : countRid (post :: rest) r = countRid rest r := by
        have : ¬ post.rid = r := fun h => hr h.symm
        simp [countRid, List.filter_cons, this]
      cases h : lookupA acc post.rid with
      | some m =>
        dsimp only
        rw [ih, lookupA_bump, if_neg hr, hcount]
      | none =>
        dsimp only
        rw [ih, lookupA_snoc, hcount]
        cases hl : lookupA acc r with
        | some m => rfl
        | none => simp [hr]

/-- The tally fold keeps its keys unique. -/
theorem tallyFold_nodup (posts : List Posting) (acc : List (Rid × Nat))
    (hn : (acc.map Prod.fst).Nodup) :
    ((posts.foldl
        (fun acc post =>
          match lookupA acc post.rid with
          | some _ =>
            acc.map (fun p => if p.1 = post.rid then (p.1, p.2 + 1) else p)
          | none => acc ++ [(post.rid, 1)])
        acc).map Prod.fst).Nodup := by
  induction posts generalizing acc with
  | nil => exact hn
  | cons post rest ih =>
    rw [List.foldl_cons]
    cases h : lookupA acc post.rid with
    | some m =>
      apply ih
      have : (acc.map (fun p => if p.1 = post.rid then (p.1, p.2 + 1) else p)).map
          Prod.fst = acc.map Prod.fst := by
        rw [List.map_map]
        apply List.map_congr_left
        intro p _
        by_cases hp : p.1 = post.rid <;> simp [hp]
      rw [this]
      exact hn
    | none =>
      apply ih
      rw [List.map_append]
      have hnotin : post.rid ∉ acc.map Prod.fst := lookupA_eq_none.mp h
      refine List.Nodup.append hn (by simp) ?_
      intro x hx hy
      simp only [List.map_cons, List.map_nil, List.mem_singleton] at hy
      rw [hy] at hx
      exact hnotin hx

/-- `search`'s tally list: lookup gives the term frequency. -/
theorem tallyScores_lookup (posts : List Posting) (r : Rid) :
    lookupA (tallyScores posts) r =
      (if countRid posts r = 0 then none else some (countRid posts r)) := by
  rw [tallyScores, tallyFold_lookup]
  rfl

/-- C6, counterexample: (i) after indexing the text `"Hello"` for node 1 —
stored under the lowercased term `"hello"` — `search("Hello")` returns
nothing while the lowercased lookup the claim prescribes would return node 1:
the query is NOT lowercased.  (ii) with the term `"x"` indexed for node 2 and
then node 1 and the identity iteration order, the tied result order is
`[2, 1]`, not the claimed ascending-R order `[1, 2]`. -/
theorem search_counterexample :
    GraphDB.search ⟨[], [], [], [], indexText [] ⟨1⟩ "Hello" 5, 0⟩ id
        "Hello" = [] ∧
    GraphDB.search ⟨[], [], [], [], indexText [] ⟨1⟩ "Hello" 5, 0⟩ id
        "hello" = [(⟨1⟩, 1)] ∧
    GraphDB.search
        ⟨[], [], [], [], indexText (indexText [] ⟨2⟩ "x" 1) ⟨1⟩ "x" 2, 0⟩ id
        "x" = [(⟨2⟩, 1), (⟨1⟩, 1)] ∧
    ([(⟨2⟩, 1), (⟨1⟩, 1)] : List (Rid × Nat)) ≠ [(⟨1⟩, 1), (⟨2⟩, 1)] := by
  refine ⟨?_, ?_, ?_, by decide⟩
  · have h : lookupA (indexText [] (⟨1⟩ : Rid) "Hello" 5) "Hello" = none := by
      decide
    simp only [GraphDB.search, h]
    simp [List.mergeSort]
  · have h : lookupA (indexText [] (⟨1⟩ : Rid) "Hello" 5) "hello" =
        some [⟨"hello", ⟨1⟩, [0], 5⟩] := by decide
    simp only [GraphDB.search, h]
    have ht : tallyScores [⟨"hello", ⟨1⟩, [0], 5⟩] = [(⟨1⟩, 1)] := by decide
    rw [ht]
    simp [List.mergeSort]
  · have h : lookupA (indexText (indexText [] (⟨2⟩ : Rid) "x" 1) ⟨1⟩ "x" 2)
        "x" = some [⟨"x", ⟨2⟩, [0], 1⟩, ⟨"x", ⟨1⟩, [0], 2⟩] := by decide
    simp only [GraphDB.search, h]
    have ht : tallyScores [⟨"x", ⟨2⟩, [0], 1⟩, ⟨"x", ⟨1⟩, [0], 2⟩] =
        [(⟨2⟩, 1), (⟨1⟩, 1)] := by decide
    rw [ht]
    simp [List.mergeSort]

/-- C6, amended: `search(term)` looks up the posting list for the term
exactly as given (no lowercasing of the query — the index stores lowercased
terms, so only an already-lowercase query can match), returns one pair per
matching node whose score is that node's posting count (the term frequency,
for a node indexed once), and sorts descending by score; the order among
tied scores follows the hash-map iteration order and is NOT the claimed
ascending-R order.  Stated for every iteration order (any permutation). -/
theorem search_postcondition (g : GraphState)
    (hashOrder : List (Rid × Nat) → List (Rid × Nat))
    (hperm : ∀ l, (hashOrder l).Perm l) (query : String) :
    (GraphDB.search g hashOrder query).Pairwise
      (fun a b => b.2 ≤ a.2) ∧
    (∀ r n, ((r, n) ∈ GraphDB.search g hashOrder query ↔
      0 < n ∧ n = countRid ((lookupA g.postings query).getD []) r)) := by
  have hresults : (match lookupA g.postings query with
      | some posts => tallyScores posts
      | none => []) = tallyScores ((lookupA g.postings query).getD []) := by
    cases h : lookupA g.postings query with
    | some posts => rfl
    | none => rfl
  constructor
  · have := @List.sorted_mergeSort (Rid × Nat)
      (fun (a b : Rid × Nat) => decide (b.2 ≤ a.2))
      (fun a b c hab hbc => by
        simp only [decide_eq_true_eq] at *
        omega)
      (fun a b => by
        simp only [Bool.or_eq_true, decide_eq_true_eq]
        omega)
      (hashOrder (match lookupA g.postings query with
        | some posts => tallyScores posts
        | none => []))
    rw [GraphDB.search]
    exact List.Pairwise.imp (by simp) this
  · intro r n
    rw [GraphDB.search]
    rw [List.Perm.mem_iff (List.mergeSort_perm _ _)]
    rw [List.Perm.mem_iff (hperm _)]
    rw [hresults]
    have hnodup : ((tallyScores ((lookupA g.postings query).getD [])).map
        Prod.fst).Nodup := tallyFold_nodup _ [] (by simp)
    rw [show tallyScores ((lookupA g.postings query).getD []) =
        tallyScores ((lookupA g.postings query).getD []) from rfl]
    rw [mem_iff_lookupA hnodup, tallyScores_lookup]
    by_cases h : countRid ((lookupA g.postings query).getD []) r = 0
    · simp [h]
      omega
    · simp [h]
      constructor
      · intro he
        constructor
        · omega
        · omega
      · intro ⟨h1, h2⟩
        omega

/-- C6 amended, witness: the two-posting `"x"` index with the identity
iteration order — the result is score-sorted, and node 1's membership with
score 1 matches its term frequency. -/
theorem search_postcondition_witness :
    (GraphDB.search
        ⟨[], [], [], [], indexText (indexText [] ⟨2⟩ "x" 1) ⟨1⟩ "x" 2, 0⟩ id
        "x").Pairwise (fun a b => b.2 ≤ a.2) ∧
    (((⟨1⟩ : Rid), (1 : Nat)) ∈ GraphDB.search
        ⟨[], [], [], [], indexText (indexText [] ⟨2⟩ "x" 1) ⟨1⟩ "x" 2, 0⟩ id
        "x" ↔
      0 < 1 ∧ 1 = countRid
        ((lookupA
          (⟨[], [], [], [], indexText (indexText [] ⟨2⟩ "x" 1) ⟨1⟩ "x" 2, 0⟩ :
            GraphState).postings "x").getD []) ⟨1⟩) := by
  have h := search_postcondition
    ⟨[], [], [], [], indexText (indexText [] ⟨2⟩ "x" 1) ⟨1⟩ "x" 2, 0⟩ id
    (fun l => List.Perm.refl l) "x"
  exact ⟨h.1, h.2 ⟨1⟩ 1⟩

/-- On a strictly ascending timeline the `..=t` range is empty exactly when
every key exceeds `t`. -/
theorem timelineLastLE_none (tl : List (Nat × Cid)) (t : Nat)
    (h : ∀ e ∈ tl, t < e.1) : timelineLastLE tl t = none := by
  rw [timelineLastLE]
  have h2 : tl.filter (fun p => p.1 ≤ t) = [] := by
    rw [List.filter_eq_nil_iff]
    intro p hp
    simp only [decide_eq_true_eq]
    have := h p hp
    omega
  rw [h2]
  rfl

/-- On a strictly ascending timeline, `range(..=t).next_back()` is the entry
with the largest key `≤ t`. -/
theorem timelineLastLE_max (tl : List (Nat × Cid))
    (hs : tl.Pairwise (fun a b => a.1 < b.1)) (t : Nat) (e : Nat × Cid)
    (he : e ∈ tl) (het : e.1 ≤ t)
    (hmax : ∀ q ∈ tl, q.1 ≤ t → q.1 ≤ e.1) :
    timelineLastLE tl t = some e := by
  induction tl with
  | nil => cases he
  | cons a rest ih =>
    rw [List.pairwise_cons] at hs
    rw [List.mem_cons] at he
    rcases he with he | he
    · have hat : a.1 ≤ t := he ▸ het
      have hrest : rest.filter (fun p => p.1 ≤ t) = [] := by
        rw [List.filter_eq_nil_iff]
        intro q hq
        simp only [decide_eq_true_eq]
        intro hqt
        have h1 : q.1 ≤ e.1 := hmax q (List.mem_cons_of_mem _ hq) hqt
        have h2 : a.1 < q.1 := hs.1 q hq
        rw [he] at h1
        omega
      rw [timelineLastLE, List.filter_cons, if_pos (by simpa using hat),
        hrest, ← he]
      rfl
    · have hat : a.1 ≤ t := by
        have := hs.1 e he
        omega
      have hne : rest.filter (fun p => p.1 ≤ t) ≠ [] := by
        intro hnil
        have : e ∈ rest.filter (fun p => p.1 ≤ t) :=
          List.mem_filter.mpr ⟨he, by simpa using het⟩
        rw [hnil] at this
        cases this
      have ihr := ih hs.2 he (fun q hq hqt => hmax q (List.mem_cons_of_mem _ hq) hqt)
      rw [timelineLastLE, List.filter_cons, if_pos (by simpa using hat)]
      rw [timelineLastLE] at ihr
      cases hfil : rest.filter (fun p => p.1 ≤ t) with
      | nil => exact absurd hfil hne
      | cons b bs =>
        rw [hfil] at ihr
        rw [List.getLast?_cons_cons]
        exact ihr

/-- C4: `get_node_at` is the temporal lookup the claim describes.  With the
node's timeline present and strictly ascending (the `BTreeMap` invariant):
(i) when every update is later than `t`, the result is `Ok(None)`;
(ii) the entry with the largest key `≤ t` is the one fetched;
(iii) for a timeline with exactly the updates `t₁ < t₂`: every
`t ∈ [t₁, t₂)` reads the `t₁`-cid, every `t ≥ t₂` the `t₂`-cid, and every
`t < t₁` gives `Ok(None)`.  The CAS fetch is the explicit `casGet`
parameter (its failure — e.g. the C1 defect — propagates unchanged). -/
theorem get_node_at_correct (g : GraphState)
    (casGet : Cid → Except IoErr (List Nat)) (rid : Rid)
    (tl : List (Nat × Cid))
    (hlook : lookupA g.temporal_rid_mappings rid = some tl)
    (hsorted : tl.Pairwise (fun a b => a.1 < b.1)) :
    (∀ t, (∀ e ∈ tl, t < e.1) →
      GraphDB.get_node_at g casGet rid t = .ok none) ∧
    (∀ t e, e ∈ tl → e.1 ≤ t → (∀ q ∈ tl, q.1 ≤ t → q.1 ≤ e.1) →
      GraphDB.get_node_at g casGet rid t = (casGet e.2).map some) ∧
    (∀ t1 c1 t2 c2, tl = [(t1, c1), (t2, c2)] → t1 < t2 →
      (∀ t, t1 ≤ t → t < t2 →
        GraphDB.get_node_at g casGet rid t = (casGet c1).map some) ∧
      (∀ t, t2 ≤ t →
        GraphDB.get_node_at g casGet rid t = (casGet c2).map some) ∧
      (∀ t, t < t1 → GraphDB.get_node_at g casGet rid t = .ok none)) := by
  have hbase : ∀ t, GraphDB.get_node_at g casGet rid t =
      (match (timelineLastLE tl t).map (·.2) with
       | some cid => (casGet cid).map some
       | none => .ok none) := by
    intro t
    rw [GraphDB.get_node_at, getNodeAtCid, hlook]
  have hnone : ∀ t, (∀ e ∈ tl, t < e.1) →
      GraphDB.get_node_at g casGet rid t = .ok none := by
    intro t h
    rw [hbase, timelineLastLE_none tl t h]
    rfl
  have hmax : ∀ t e, e ∈ tl → e.1 ≤ t → (∀ q ∈ tl, q.1 ≤ t → q.1 ≤ e.1) →
      GraphDB.get_node_at g casGet rid t = (casGet e.2).map some := by
    intro t e he het hm
    rw [hbase, timelineLastLE_max tl hsorted t e he het hm]
    rfl
  refine ⟨hnone, hmax, ?_⟩
  intro t1 c1 t2 c2 htl h12
  refine ⟨?_, ?_, ?_⟩
  · intro t ht1 ht2
    refine hmax t (t1, c1) (by rw [htl]; exact List.mem_cons_self _ _) ht1 ?_
    intro q hq hqt
    rw [htl] at hq
    rcases List.mem_cons.mp hq with hq | hq
    · rw [hq]
    · rcases List.mem_cons.mp hq with hq | hq
      · rw [hq] at hqt ⊢
        dsimp only at hqt ⊢
        omega
      · cases hq
  · intro t ht2
    refine hmax t (t2, c2)
      (by rw [htl]; exact List.mem_cons_of_mem _ (List.mem_cons_self _ _))
      ht2 ?_
    intro q hq hqt
    rw [htl] at hq
    rcases List.mem_cons.mp hq with hq | hq
    · rw [hq]; dsimp only; omega
    · rcases List.mem_cons.mp hq with hq | hq
      · rw [hq]
      · cases hq
  · intro t ht
    refine hnone t ?_
    intro e hel
    rw [htl] at hel
    rcases List.mem_cons.mp hel with hq | hq
    · rw [hq]; dsimp only; omega
    · rcases List.mem_cons.mp hq with hq | hq
      · rw [hq]; dsimp only; omega
      · cases hq

/-- C4 witness: node 1 created as cid `[1]` at `t=1000` and updated to cid
`[2]` at `t=2000`, with a lookup-faithful CAS: `get_node_at` at 1500, 2500
and 500 return the `t₁` value, the `t₂` value and `None`. -/
theorem get_node_at_correct_witness :
    GraphDB.get_node_at
        ⟨[], [(⟨1⟩, [(1000, ⟨[1]⟩), (2000, ⟨[2]⟩)])], [], [], [], 0⟩
        (fun c => .ok c.bytes) ⟨1⟩ 1500 = .ok (some [1]) ∧
    GraphDB.get_node_at
        ⟨[], [(⟨1⟩, [(1000, ⟨[1]⟩), (2000, ⟨[2]⟩)])], [], [], [], 0⟩
        (fun c => .ok c.bytes) ⟨1⟩ 2500 = .ok (some [2]) ∧
    GraphDB.get_node_at
        ⟨[], [(⟨1⟩, [(1000, ⟨[1]⟩), (2000, ⟨[2]⟩)])], [], [], [], 0⟩
        (fun c => .ok c.bytes) ⟨1⟩ 500 = .ok none := by
  have h := get_node_at_correct
    ⟨[], [(⟨1⟩, [(1000, ⟨[1]⟩), (2000, ⟨[2]⟩)])], [], [], [], 0⟩
    (fun c => .ok c.bytes) ⟨1⟩ [(1000, ⟨[1]⟩), (2000, ⟨[2]⟩)]
    (by decide) (by decide)
  have h3 := h.2.2 1000 ⟨[1]⟩ 2000 ⟨[2]⟩ rfl (by decide)
  exact ⟨h3.1 1500 (by decide) (by decide), h3.2.1 2500 (by decide),
    h3.2.2 500 (by decide)⟩

/-- Filtering one key out changes only that key's lookup. -/
theorem lookupA_filter_ne (es : List (QKey × ManifestEntry)) (k q : QKey) :
    lookupA (es.filter (fun p => p.1 ≠ k)) q =
      if q = k then none else lookupA es q := by
  induction es with
  | nil => by_cases h : q = k <;> simp [lookupA, h]
  | cons p rest ih =>
    simp only [ne_eq, decide_not] at ih ⊢
    by_cases hp : p.1 = k
    · rw [List.filter_cons, show (!decide (p.1 = k)) = false by simp [hp]]
      simp only [Bool.false_eq_true, if_false]
      rw [ih]
      by_cases hq : q = k
      · simp [hq]
      · have hpq : ¬ p.1 = q := by
          rw [hp]; exact fun h => hq h.symm
        simp [hq, lookupA, hpq]
    · rw [List.filter_cons, show (!decide (p.1 = k)) = true by simp [hp],
        if_pos rfl, lookupA]
      by_cases hpq : p.1 = q
      · have hq : ¬ q = k := by rw [← hpq]; exact hp
        rw [if_pos hpq, if_neg hq, lookupA, if_pos hpq]
      · rw [if_neg hpq, ih]
        by_cases hq : q = k
        · simp [hq]
        · simp [hq, lookupA, hpq]

/-- The removal loop empties exactly the removed keys. -/
theorem lookupA_removeEntries (rems : List QKey)
    (es : List (QKey × ManifestEntry)) (q : QKey) :
    lookupA (removeEntries es rems) q =
      if q ∈ rems then none else lookupA es q := by
  induction rems generalizing es with
  | nil => simp [removeEntries]
  | cons k rest ih =>
    rw [removeEntries, List.foldl_cons, ← removeEntries, ih,
      lookupA_filter_ne]
    by_cases hq : q = k
    · simp [hq]
    · by_cases hr : q ∈ rest <;> simp [hq, hr]

/-- Replacing the cid of every pair keyed `k` changes only the `k`
lookup. -/
theorem lookupA_mapCid (es : List (QKey × ManifestEntry)) (k q : QKey)
    (c : Cid) :
    lookupA (es.map (fun p =>
        if p.1 = k then (p.1, { p.2 with result_cid := c }) else p)) q =
      if q = k then
        (lookupA es q).map (fun e => { e with result_cid := c })
      else lookupA es q := by
  induction es with
  | nil => by_cases h : q = k <;> simp [lookupA, h]
  | cons p rest ih =>
    by_cases hp : p.1 = k
    · by_cases hq : q = k
      · subst hq
        simp [lookupA, hp]
      · have hq2 : ¬ k = q := fun h => hq h.symm
        have hpq : ¬ p.1 = q := by rw [hp]; exact hq2
        simp [lookupA, hp, hq, hq2, hpq, ih]
    · by_cases hpq : p.1 = q
      · have hq : ¬ q = k := by rw [← hpq]; exact hp
        simp [lookupA, hp, hpq, hq]
      · simp [lookupA, hp, hpq, ih]

/-- The update loop, over pairs with unique keys: the updated key's entry
gets the new cid, all else is untouched. -/
theorem lookupA_updateEntries (upds : List (QKey × Cid))
    (hnod : (upds.map Prod.fst).Nodup) (es : List (QKey × ManifestEntry))
    (q : QKey) :
    lookupA (updateEntries es upds) q =
      (match lookupA upds q with
       | some c => (lookupA es q).map (fun e => { e with result_cid := c })
       | none => lookupA es q) := by
  induction upds generalizing es with
  | nil => simp [updateEntries, lookupA]
  | cons kc rest ih =>
    rw [List.map_cons, List.nodup_cons] at hnod
    rw [updateEntries, List.foldl_cons, ← updateEntries, ih hnod.2]
    by_cases hq : q = kc.1
    · have hrest : lookupA rest q = none := by
        rw [lookupA_eq_none, hq]
        exact hnod.1
      rw [hrest, lookupA_mapCid, if_pos hq, lookupA, if_pos hq.symm]
    · have hq2 : ¬ kc.1 = q := fun h => hq h.symm
      rw [lookupA_mapCid, if_neg hq, lookupA, if_neg hq2]

/-- `any` of a key test is lookup success. -/
theorem any_key_eq_isSome (es : List (QKey × ManifestEntry)) (k : QKey) :
    es.any (fun p => p.1 == k) = (lookupA es k).isSome := by
  induction es with
  | nil => simp [lookupA]
  | cons p rest ih =>
    by_cases hp : p.1 = k <;> simp [lookupA, hp, ih]

/-- Replacing every pair keyed `k` by `(k, v)` at the lookup level. -/
theorem lookupA_mapReplace (es : List (QKey × ManifestEntry)) (k q : QKey)
    (v : ManifestEntry) :
    lookupA (es.map (fun p => if p.1 = k then (k, v) else p)) q =
      if q = k then
        (if (lookupA es k).isSome then some v else none)
      else lookupA es q := by
  induction es with
  | nil => by_cases h : q = k <;> simp [lookupA, h]
  | cons p rest ih =>
    by_cases hp : p.1 = k
    · by_cases hq : q = k
      · subst hq
        simp [lookupA, hp]
      · have hkq : ¬ k = q := fun h => hq h.symm
        have hpq : ¬ p.1 = q := by rw [hp]; exact hkq
        simp [lookupA, hp, hq, hkq, hpq, ih]
    · by_cases hpq : p.1 = q
      · have hq : ¬ q = k := by rw [← hpq]; exact hp
        simp [lookupA, hp, hpq, hq]
      · simp [lookupA, hp, hpq, ih]

/-- `HashMap::insert` semantics at the lookup level. -/
theorem lookupA_insertA (es : List (QKey × ManifestEntry)) (k q : QKey)
    (v : ManifestEntry) :
    lookupA (insertA es k v) q = if q = k then some v else lookupA es q := by
  rw [insertA, any_key_eq_isSome]
  cases hk : lookupA es k with
  | some w =>
    simp only [Option.isSome_some, if_true]
    rw [lookupA_mapReplace, hk]
    by_cases hq : q = k <;> simp [hq]
  | none =>
    simp only [Option.isSome_none]
    rw [if_neg (by simp), lookupA_append]
    cases hq : lookupA es q with
    | some w =>
      have : ¬ q = k := by
        intro h
        rw [h, hk] at hq
        cases hq
      simp [this]
    | none =>
      by_cases h : q = k
      · simp [lookupA, h]
      · have h2 : ¬ k = q := fun hh => h hh.symm
        simp [lookupA, h, h2]

/-- The insertion loop, over entries with unique keys: an added entry's key
looks up that entry; all other keys fall through. -/
theorem lookupA_addEntries (added : List ManifestEntry) :
    ∀ (es : List (QKey × ManifestEntry)) (q : QKey),
    (added.map (·.qkey)).Nodup →
    lookupA (addEntries es added) q =
      (match added.find? (fun e => e.qkey == q) with
       | some e => some e
       | none => lookupA es q) := by
  induction added with
  | nil => intro es q _; rfl
  | cons e rest ih =>
    intro es q hnod
    rw [List.map_cons, List.nodup_cons] at hnod
    rw [addEntries, List.foldl_cons, ← addEntries, ih _ q hnod.2]
    by_cases hq : e.qkey = q
    · have hb : (e.qkey == q) = true := by simp [hq]
      have hrest : rest.find? (fun x => x.qkey == q) = none := by
        rw [List.find?_eq_none]
        intro x hx
        have hne : x.qkey ≠ q := by
          intro hxq
          exact hnod.1 (by rw [hq, ← hxq]; exact List.mem_map.mpr ⟨x, hx, rfl⟩)
        simp [hne]
      rw [hrest]
      dsimp only
      rw [lookupA_insertA, if_pos hq.symm]
      simp only [List.find?_cons, hb]
    · have hb : (e.qkey == q) = false := by simp [hq]
      simp only [List.find?_cons, hb]
      cases hf : rest.find? (fun x => x.qkey == q) with
      | some e2 => rfl
      | none =>
        dsimp only
        rw [lookupA_insertA, if_neg (fun h => hq h.symm)]

/-- A key-preserving `filterMap` cannot invent a lookup for an absent
key. -/
theorem lookupA_filterMap_none
    (f : (QKey × ManifestEntry) → Option (QKey × Cid))
    (hf : ∀ p b, f p = some b → b.1 = p.1) :
    ∀ (l : List (QKey × ManifestEntry)) (q : QKey),
    q ∉ l.map Prod.fst → lookupA (l.filterMap f) q = none := by
  intro l
  induction l with
  | nil => intro q _; rfl
  | cons p rest ih =>
    intro q hq
    rw [List.map_cons] at hq
    have hq1 : ¬ q = p.1 := fun h => hq (by rw [h]; exact List.mem_cons_self _ _)
    have hq2 : q ∉ rest.map Prod.fst :=
      fun h => hq (List.mem_cons_of_mem _ h)
    rw [List.filterMap_cons]
    cases hfp : f p with
    | none => exact ih q hq2
    | some b =>
      have hb : b.1 = p.1 := hf p b hfp
      rw [lookupA, if_neg (by rw [hb]; exact fun h => hq1 h.symm)]
      exact ih q hq2

/-- The updated list of `create_diff`, at the lookup level: with unique live
keys, key `q` carries the proposed digest exactly when both tables hold `q`
with different digests. -/
theorem lookupA_updatedList (new : List (QKey × ManifestEntry)) :
    ∀ (mes : List (QKey × ManifestEntry)) (q : QKey),
    (mes.map Prod.fst).Nodup →
    lookupA (mes.filterMap (fun p =>
        match lookupA new p.1 with
        | some ne =>
          if p.2.result_cid ≠ ne.result_cid then some (p.1, ne.result_cid)
          else none
        | none => none)) q =
      (match lookupA mes q, lookupA new q with
       | some oe, some ne =>
         if oe.result_cid ≠ ne.result_cid then some ne.result_cid else none
       | some _, none => none
       | none, _ => none) := by
  intro mes
  induction mes with
  | nil => intro q _; rfl
  | cons p rest ih =>
    intro q hnod
    rw [List.map_cons, List.nodup_cons] at hnod
    have hkey : ∀ (pp : QKey × ManifestEntry) (b : QKey × Cid),
        (match lookupA new pp.1 with
        | some ne =>
          if pp.2.result_cid ≠ ne.result_cid then some (pp.1, ne.result_cid)
          else none
        | none => none : Option (QKey × Cid)) = some b → b.1 = pp.1 := by
      intro pp b hb
      cases hn : lookupA new pp.1 with
      | some ne =>
        rw [hn] at hb
        dsimp only at hb
        by_cases hc : pp.2.result_cid ≠ ne.result_cid
        · rw [if_pos hc] at hb
          cases hb
          rfl
        · rw [if_neg hc] at hb
          cases hb
      | none =>
        rw [hn] at hb
        dsimp only at hb
        cases hb
    rw [List.filterMap_cons]
    by_cases hpq : p.1 = q
    · have hlm : lookupA (p :: rest) q = some p.2 := by
        rw [lookupA, if_pos hpq]
      have hnotin : q ∉ rest.map Prod.fst := hpq ▸ hnod.1
      rw [hlm]
      cases hn : lookupA new q with
      | some ne =>
        have hn1 : lookupA new p.1 = some ne := by rw [hpq]; exact hn
        by_cases hc : p.2.result_cid ≠ ne.result_cid
        · have hfp : (match lookupA new p.1 with
              | some ne =>
                if p.2.result_cid ≠ ne.result_cid then
                  some (p.1, ne.result_cid)
                else none
              | none => none : Option (QKey × Cid)) =
              some (p.1, ne.result_cid) := by
            rw [hn1]
            dsimp only
            rw [if_pos hc]
          rw [hfp]
          dsimp only
          rw [lookupA]
          dsimp only
          rw [if_pos hpq]
          rw [if_pos hc]
        · have hfp : (match lookupA new p.1 with
              | some ne =>
                if p.2.result_cid ≠ ne.result_cid then
                  some (p.1, ne.result_cid)
                else none
              | none => none : Option (QKey × Cid)) = none := by
            rw [hn1]
            dsimp only
            rw [if_neg hc]
          rw [hfp]
          dsimp only
          rw [lookupA_filterMap_none _ hkey rest q hnotin]
          rw [if_neg hc]
      | none =>
        have hn1 : lookupA new p.1 = none := by rw [hpq]; exact hn
        have hfp : (match lookupA new p.1 with
            | some ne =>
              if p.2.result_cid ≠ ne.result_cid then
                some (p.1, ne.result_cid)
              else none
            | none => none : Option (QKey × Cid)) = none := by
          rw [hn1]
        rw [hfp]
        dsimp only
        rw [lookupA_filterMap_none _ hkey rest q hnotin]
    · have hlm : lookupA (p :: rest) q = lookupA rest q := by
        rw [lookupA, if_neg hpq]
      rw [hlm]
      cases hfp : (match lookupA new p.1 with
          | some ne =>
            if p.2.result_cid ≠ ne.result_cid then some (p.1, ne.result_cid)
            else none
          | none => none : Option (QKey × Cid)) with
      | none => exact ih q hnod.2
      | some b =>
        have hb : b.1 = p.1 := hkey p b hfp
        rw [lookupA, if_neg (by rw [hb]; exact hpq)]
        exact ih q hnod.2

/-- The added list of `create_diff`, probed by `find?` on a key: with a
well-formed, unique-keyed proposal, key `q` finds the proposed entry exactly
when `q` is proposed and not live. -/
theorem find_added (mes : List (QKey × ManifestEntry)) :
    ∀ (new : List (QKey × ManifestEntry)) (q : QKey),
    (new.map Prod.fst).Nodup → (∀ p ∈ new, p.2.qkey = p.1) →
    ((new.filter (fun p => lookupA mes p.1 = none)).map (·.2)).find?
        (fun e => e.qkey == q) =
      (match lookupA new q with
       | some ne => if lookupA mes q = none then some ne else none
       | none => none) := by
  intro new
  induction new with
  | nil => intro q _ _; rfl
  | cons p rest ih =>
    intro q hnod hwf
    rw [List.map_cons, List.nodup_cons] at hnod
    have hpw : p.2.qkey = p.1 := hwf p (List.mem_cons_self _ _)
    have hwfr : ∀ x ∈ rest, x.2.qkey = x.1 :=
      fun x hx => hwf x (List.mem_cons_of_mem _ hx)
    rw [List.filter_cons]
    by_cases hc : lookupA mes p.1 = none
    · rw [if_pos (by simpa using hc), List.map_cons]
      by_cases hq : p.1 = q
      · have hb : (p.2.qkey == q) = true := by simp [hpw, hq]
        have hcq : lookupA mes q = none := by rw [← hq]; exact hc
        simp only [List.find?_cons, hb, lookupA, if_pos hq]
        rw [if_pos hcq]
      · have hb : (p.2.qkey == q) = false := by simp [hpw, hq]
        simp only [List.find?_cons, hb, lookupA, if_neg hq]
        exact ih q hnod.2 hwfr
    · rw [if_neg (by simpa using hc), ih q hnod.2 hwfr]
      by_cases hq : p.1 = q
      · have hrest : lookupA rest q = none := by
          rw [lookupA_eq_none]
          exact hq ▸ hnod.1
        have hcq : ¬ lookupA mes q = none := by rw [← hq]; exact hc
        rw [hrest, lookupA, if_pos hq]
        dsimp only
        rw [if_neg hcq]
      · rw [lookupA, if_neg hq]

/-- The added entries of `create_diff` inherit the proposal's key
uniqueness. -/
theorem added_keys_nodup (mes new : List (QKey × ManifestEntry))
    (hnod : (new.map Prod.fst).Nodup) (hwf : ∀ p ∈ new, p.2.qkey = p.1) :
    (((new.filter (fun p => lookupA mes p.1 = none)).map (·.2)).map
      (·.qkey)).Nodup := by
  rw [List.map_map]
  have h2 : (new.filter (fun p => lookupA mes p.1 = none)).map
      (fun p => p.2.qkey) =
      (new.filter (fun p => lookupA mes p.1 = none)).map Prod.fst :=
    List.map_congr_left (fun p hp => hwf p (List.mem_of_mem_filter hp))
  rw [show ((fun e : ManifestEntry => e.qkey) ∘ fun p :
      QKey × ManifestEntry => p.2) = fun p : QKey × ManifestEntry =>
      p.2.qkey from rfl, h2]
  exact List.Nodup.sublist ((List.filter_sublist new).map Prod.fst) hnod

/-- Membership in `create_diff`'s removed list: live keys missing from the
proposal. -/
theorem mem_removed_iff (mes new : List (QKey × ManifestEntry)) (q : QKey) :
    q ∈ (mes.filter (fun p => lookupA new p.1 = none)).map Prod.fst ↔
      q ∈ mes.map Prod.fst ∧ lookupA new q = none := by
  constructor
  · intro h
    rcases List.mem_map.mp h with ⟨p, hp, hfst⟩
    rcases List.mem_filter.mp hp with ⟨hpm, hcond⟩
    simp only [decide_eq_true_eq] at hcond
    subst hfst
    exact ⟨List.mem_map.mpr ⟨p, hpm, rfl⟩, hcond⟩
  · intro ⟨hmem, hcond⟩
    rcases List.mem_map.mp hmem with ⟨p, hp, hfst⟩
    subst hfst
    exact List.mem_map.mpr
      ⟨p, List.mem_filter.mpr ⟨hp, by simpa using hcond⟩, rfl⟩

/-- A key-preserving `filterMap` selects a sub-list of keys. -/
theorem filterMap_keys_sublist
    (f : (QKey × ManifestEntry) → Option (QKey × Cid))
    (hf : ∀ p b, f p = some b → b.1 = p.1) :
    ∀ l : List (QKey × ManifestEntry),
    ((l.filterMap f).map Prod.fst).Sublist (l.map Prod.fst) := by
  intro l
  induction l with
  | nil => simp
  | cons p rest ih =>
    rw [List.filterMap_cons]
    cases hfp : f p with
    | none =>
      rw [List.map_cons]
      exact ih.cons _
    | some b =>
      rw [List.map_cons, List.map_cons, hf p b hfp]
      exact ih.cons₂ _

/-- C5: `create_diff` computes exactly the claim's added, removed and
updated sets; its version is one greater than the last applied version; and
applying the created diff makes the live `Q → result-digest` mapping equal
the proposal's.  `HashMap`s carry unique keys (`hmK`, `hnK`) and the
proposal's entries are keyed by their own fingerprints (`hnW`). -/
theorem manifest_diff_correct (m : Manifest)
    (new_entries : List (QKey × ManifestEntry)) (now : Nat)
    (hmK : (m.entries.map Prod.fst).Nodup)
    (hnK : (new_entries.map Prod.fst).Nodup)
    (hnW : ∀ p ∈ new_entries, p.2.qkey = p.1) :
    (∀ e, e ∈ (m.create_diff new_entries now).added ↔
      (e.qkey, e) ∈ new_entries ∧ lookupA m.entries e.qkey = none) ∧
    (∀ q, q ∈ (m.create_diff new_entries now).removed ↔
      q ∈ m.entries.map Prod.fst ∧ lookupA new_entries q = none) ∧
    (∀ q c, (q, c) ∈ (m.create_diff new_entries now).updated ↔
      ∃ oe ne, lookupA m.entries q = some oe ∧
        lookupA new_entries q = some ne ∧
        oe.result_cid ≠ ne.result_cid ∧ c = ne.result_cid) ∧
    ((m.create_diff new_entries now).version =
        m.base_version + m.diffs.length + 1 ∧
      (m.apply_diff (m.create_diff new_entries now)).diffs.length =
        m.diffs.length + 1 ∧
      ∀ new2 now2,
        ((m.apply_diff (m.create_diff new_entries now)).create_diff
            new2 now2).version =
          (m.create_diff new_entries now).version + 1) ∧
    (∀ q, (m.apply_diff (m.create_diff new_entries now)).get_result q =
      (lookupA new_entries q).map (·.result_cid)) := by
  have hkey : ∀ (pp : QKey × ManifestEntry) (b : QKey × Cid),
      (match lookupA new_entries pp.1 with
        | some ne =>
          if pp.2.result_cid ≠ ne.result_cid then some (pp.1, ne.result_cid)
          else none
        | none => none : Option (QKey × Cid)) = some b → b.1 = pp.1 := by
    intro pp b hb
    cases hn : lookupA new_entries pp.1 with
    | some ne =>
      rw [hn] at hb
      dsimp only at hb
      by_cases hc : pp.2.result_cid ≠ ne.result_cid
      · rw [if_pos hc] at hb
        cases hb
        rfl
      · rw [if_neg hc] at hb
        cases hb
    | none =>
      rw [hn] at hb
      dsimp only at hb
      cases hb
  refine ⟨?_, ?_, ?_, ?_, ?_⟩
  · -- added
    intro e
    rw [Manifest.create_diff]
    constructor
    · intro h
      rcases List.mem_map.mp h with ⟨p, hp, hsnd⟩
      rcases List.mem_filter.mp hp with ⟨hpm, hcond⟩
      simp only [decide_eq_true_eq] at hcond
      have hw := hnW p hpm
      have hpe : p = (e.qkey, e) := by
        have h1 : p.2 = e := hsnd
        rw [← h1, hw]
      rw [hpe] at hpm hcond
      exact ⟨hpm, hcond⟩
    · intro ⟨hmem, hcond⟩
      exact List.mem_map.mpr
        ⟨(e.qkey, e), List.mem_filter.mpr ⟨hmem, by simpa using hcond⟩, rfl⟩
  · -- removed
    intro q
    rw [Manifest.create_diff]
    exact mem_removed_iff m.entries new_entries q
  · -- updated
    intro q c
    rw [Manifest.create_diff]
    constructor
    · intro h
      rcases List.mem_filterMap.mp h with ⟨p, hpm, hfp⟩
      have hb1 : p.1 = q := (hkey p (q, c) hfp).symm
      cases hn : lookupA new_entries p.1 with
      | some ne =>
        rw [hn] at hfp
        dsimp only at hfp
        by_cases hc : p.2.result_cid ≠ ne.result_cid
        · rw [if_pos hc] at hfp
          injection hfp with hfp2
          have hcc : c = ne.result_cid := (congrArg Prod.snd hfp2).symm
          refine ⟨p.2, ne, ?_, ?_, hc, hcc⟩
          · rw [← hb1]
            exact mem_lookupA_of_nodup m.entries p.1 p.2 hmK (by simpa using hpm)
          · rw [← hb1]
            exact hn
        · rw [if_neg hc] at hfp
          cases hfp
      | none =>
        rw [hn] at hfp
        dsimp only at hfp
        cases hfp
    · intro ⟨oe, ne, h1, h2, h3, h4⟩
      refine List.mem_filterMap.mpr ⟨(q, oe), lookupA_mem h1, ?_⟩
      have : lookupA new_entries (q, oe).1 = some ne := h2
      rw [this]
      dsimp only
      rw [if_pos h3, h4]
  · -- versions
    refine ⟨rfl, ?_, ?_⟩
    · rw [Manifest.apply_diff]
      simp
    · intro new2 now2
      rw [Manifest.create_diff, Manifest.create_diff, Manifest.apply_diff]
      simp
      omega
  · -- application result
    intro q
    have hremoved := mem_removed_iff m.entries new_entries q
    have hupdnod : ((m.entries.filterMap (fun p =>
        match lookupA new_entries p.1 with
        | some ne =>
          if p.2.result_cid ≠ ne.result_cid then some (p.1, ne.result_cid)
          else none
        | none => none)).map Prod.fst).Nodup :=
      List.Nodup.sublist (filterMap_keys_sublist _ hkey m.entries) hmK
    have haddnod := added_keys_nodup m.entries new_entries hnK hnW
    rw [Manifest.get_result, Manifest.apply_diff]
    simp only [Manifest.create_diff]
    rw [lookupA_addEntries _ _ q haddnod]
    have hfind := find_added m.entries new_entries q hnK hnW
    rw [hfind]
    cases hm : lookupA m.entries q with
    | some oe =>
      cases hn : lookupA new_entries q with
      | some ne =>
        dsimp only
        rw [if_neg (Option.some_ne_none oe)]
        dsimp only
        rw [lookupA_updateEntries _ hupdnod, lookupA_updatedList _ _ q hmK,
          hm, hn]
        dsimp only
        have hnorem : ¬ q ∈ (m.entries.filter (fun p =>
            lookupA new_entries p.1 = none)).map Prod.fst := by
          intro hmem
          rcases (mem_removed_iff m.entries new_entries q).mp hmem with
            ⟨_, hcontra⟩
          rw [hn] at hcontra
          cases hcontra
        by_cases hc : oe.result_cid ≠ ne.result_cid
        · rw [if_pos hc]
          dsimp only
          rw [lookupA_removeEntries, if_neg hnorem, hm]
          rfl
        · rw [if_neg hc]
          rw [lookupA_removeEntries, if_neg hnorem, hm]
          rw [not_not] at hc
          simp [hc]
      | none =>
        dsimp only
        have hrem : q ∈ (m.entries.filter (fun p =>
            lookupA new_entries p.1 = none)).map Prod.fst :=
          (mem_removed_iff m.entries new_entries q).mpr
            ⟨lookupA_isSome.mpr ⟨oe, hm⟩, hn⟩
        rw [lookupA_updateEntries _ hupdnod, lookupA_updatedList _ _ q hmK,
          hm, hn]
        dsimp only
        rw [lookupA_removeEntries, if_pos hrem]
    | none =>
      cases hn : lookupA new_entries q with
      | some ne =>
        dsimp only
        rw [if_pos rfl]
      | none =>
        dsimp only
        have hnorem : ¬ q ∈ (m.entries.filter (fun p =>
            lookupA new_entries p.1 = none)).map Prod.fst := by
          intro hmem
          rcases (mem_removed_iff m.entries new_entries q).mp hmem with
            ⟨hcontra, _⟩
          exact (lookupA_eq_none.mp hm) hcontra
        rw [lookupA_updateEntries _ hupdnod, lookupA_updatedList _ _ q hmK,
          hm, hn]
        dsimp only
        rw [lookupA_removeEntries, if_neg hnorem, hm]

/-- C5 witness: the spec's example.  With live `{Q₁→D₁}` and proposal
`{Q₁→D₁', Q₂→D₂}` the diff is `updated=[(Q₁,D₁')]`, `added=[entry(Q₂,D₂)]`,
`removed=[]`, `version=1`, and applying it yields live
`{Q₁→D₁', Q₂→D₂}`. -/
theorem manifest_diff_correct_witness :
    (mC5.create_diff newC5 7).updated = [(q1C5, ⟨[11]⟩)] ∧
    (mC5.create_diff newC5 7).added = [e2C5] ∧
    (mC5.create_diff newC5 7).removed = [] ∧
    (mC5.create_diff newC5 7).version = 1 ∧
    (mC5.apply_diff (mC5.create_diff newC5 7)).get_result q1C5 =
      some ⟨[11]⟩ ∧
    (mC5.apply_diff (mC5.create_diff newC5 7)).get_result q2C5 =
      some ⟨[12]⟩ := by
  have h := manifest_diff_correct mC5 newC5 7 (by decide) (by decide)
    (by decide)
  refine ⟨by decide, by decide, by decide, by decide, ?_, ?_⟩
  · rw [h.2.2.2.2 q1C5]
    decide
  · rw [h.2.2.2.2 q2C5]
    decide

/-- Every emitted pair respects the depth bound. -/
theorem traverseGo_depth_le (adj : List (Rid × List AdjEntry))
    (labels : Option (List LabelId)) (maxDepth : Nat) (asOf : Option Nat) :
    ∀ (q : List (Rid × Nat)) (v : Finset Rid),
    ∀ rd ∈ traverseGo adj labels maxDepth asOf q v, rd.2 ≤ maxDepth := by
  intro q v
  induction q, v using traverseGo.induct adj labels maxDepth asOf with
  | case1 v => simp [traverseGo]
  | case2 c d rest visited h ih =>
    simp only [traverseGo]
    rw [dif_pos h]
    exact ih
  | case3 c d rest visited h ih =>
    simp only [traverseGo]
    rw [dif_neg h]
    intro rd hrd
    rcases List.mem_cons.mp hrd with hrd | hrd
    · have hd : ¬ maxDepth < d := fun hh => h (Or.inl hh)
      rw [hrd]
      dsimp only
      omega
    · exact ih rd hrd

/-- Each node is emitted at most once, and never one already visited. -/
theorem traverseGo_nodup (adj : List (Rid × List AdjEntry))
    (labels : Option (List LabelId)) (maxDepth : Nat) (asOf : Option Nat) :
    ∀ (q : List (Rid × Nat)) (v : Finset Rid),
    ((traverseGo adj labels maxDepth asOf q v).map Prod.fst).Nodup ∧
    ∀ r ∈ (traverseGo adj labels maxDepth asOf q v).map Prod.fst, r ∉ v := by
  intro q v
  induction q, v using traverseGo.induct adj labels maxDepth asOf with
  | case1 v => simp [traverseGo]
  | case2 c d rest visited h ih =>
    simp only [traverseGo]
    rw [dif_pos h]
    exact ih
  | case3 c d rest visited h ih =>
    simp only [traverseGo]
    rw [dif_neg h]
    have hnv : c ∉ visited := fun hv => h (Or.inr hv)
    constructor
    · rw [List.map_cons, List.nodup_cons]
      exact ⟨fun hc => (ih.2 c hc) (Finset.mem_insert_self c visited), ih.1⟩
    · intro r hr
      rw [List.map_cons, List.mem_cons] at hr
      rcases hr with hr | hr
      · rw [hr]
        exact hnv
      · exact fun hrv => (ih.2 r hr) (Finset.mem_insert_of_mem hrv)

/-- Every emitted pair of positive depth was reached through an edge that
passed the timestamp and label filters. -/
theorem traverseGo_provenance (adj : List (Rid × List AdjEntry))
    (labels : Option (List LabelId)) (maxDepth : Nat) (asOf : Option Nat) :
    ∀ (q : List (Rid × Nat)) (v : Finset Rid),
    (∀ rd ∈ q, 0 < rd.2 → reachedByEdge adj labels asOf rd.1) →
    ∀ rd ∈ traverseGo adj labels maxDepth asOf q v, 0 < rd.2 →
      reachedByEdge adj labels asOf rd.1 := by
  intro q v
  induction q, v using traverseGo.induct adj labels maxDepth asOf with
  | case1 v =>
    intro _ rd hrd
    simp [traverseGo] at hrd
  | case2 c d rest visited h ih =>
    intro hq
    simp only [traverseGo]
    rw [dif_pos h]
    exact ih (fun rd hrd => hq rd (List.mem_cons_of_mem _ hrd))
  | case3 c d rest visited h ih =>
    intro hq
    simp only [traverseGo]
    rw [dif_neg h]
    intro rd hrd hpos
    rcases List.mem_cons.mp hrd with hrd | hrd
    · exact hq rd (by rw [hrd]; exact List.mem_cons_self _ _) hpos
    · refine ih ?_ rd hrd hpos
      intro rd2 hrd2 hpos2
      rcases List.mem_append.mp hrd2 with hrd2 | hrd2
      · by_cases hdm : d < maxDepth
        · rw [dif_pos hdm, List.mem_reverse] at hrd2
          rcases List.mem_map.mp hrd2 with ⟨e, he, heq⟩
          rcases List.mem_filter.mp he with ⟨he2, hpass⟩
          cases hl : lookupA adj c with
          | none =>
            rw [hl] at he2
            cases he2
          | some edges =>
            rw [hl] at he2
            exact ⟨c, edges, e, hl, he2, hpass, congrArg Prod.fst heq⟩
        · rw [dif_neg hdm] at hrd2
          cases hrd2
      · exact hq rd2 (List.mem_cons_of_mem _ hrd2) hpos2

/-- C3, amended: `traverse` is a bounded DEPTH-first traversal — the source
pops its `Vec` "queue" from the back, making it a stack.  Each reachable R
is returned at most once; every returned depth is ≤ `max_depth`; every
non-start result was reached through an edge passing the `as_of` and label
filters; and on the spec's chain `A→B→C→D` (where stack and queue order
coincide) the result is exactly `[(A,0),(B,1),(C,2)]`.  What fails is only
the claimed breadth-first tie order, refuted separately on a branching
graph. -/
theorem traverse_dfs_properties (g : GraphState) (start : Rid)
    (labels : Option (List LabelId)) (max_depth : Nat)
    (as_of : Option Nat) :
    ((GraphDB.traverse g start labels max_depth as_of).map Prod.fst).Nodup ∧
    (∀ rd ∈ GraphDB.traverse g start labels max_depth as_of,
      rd.2 ≤ max_depth) ∧
    (∀ rd ∈ GraphDB.traverse g start labels max_depth as_of, 0 < rd.2 →
      reachedByEdge g.adjacency labels as_of rd.1) ∧
    GraphDB.traverse ⟨[], [], chainAdj, [], [], 0⟩ ⟨1⟩ (some [⟨1⟩]) 2 none =
      [(⟨1⟩, 0), (⟨2⟩, 1), (⟨3⟩, 2)] := by
  refine ⟨(traverseGo_nodup g.adjacency labels max_depth as_of _ _).1,
    traverseGo_depth_le g.adjacency labels max_depth as_of _ _,
    traverseGo_provenance g.adjacency labels max_depth as_of _ _ ?_, ?_⟩
  · intro rd hrd hpos
    rw [List.mem_singleton] at hrd
    rw [hrd] at hpos
    cases hpos
  · simp [GraphDB.traverse, traverseGo, chainAdj, lookupA, edgePass]

/-- C3 amended, witness: on the chain graph, node 2 at depth 1 is among the
results and indeed reached by a filter-passing edge. -/
theorem traverse_dfs_properties_witness :
    reachedByEdge chainAdj (some [⟨1⟩]) none ⟨2⟩ := by
  have h := (traverse_dfs_properties ⟨[], [], chainAdj, [], [], 0⟩ ⟨1⟩
    (some [⟨1⟩]) 2 none).2.2.1 (⟨2⟩, 1)
  refine h ?_ (by decide)
  have hres := (traverse_dfs_properties ⟨[], [], chainAdj, [], [], 0⟩ ⟨1⟩
    (some [⟨1⟩]) 2 none).2.2.2
  rw [hres]
  simp

/-- C3, counterexample: on node 1 with edges to 2 then 3 (in that insertion
order), `traverse` returns `[(1,0),(3,1),(2,1)]` — the LAST-inserted edge is
expanded first — while breadth-first order with insertion-order ties (the
spec-modelled `traverseSpecBFS`) gives `[(1,0),(2,1),(3,1)]`.  The claimed
BFS order with insertion-order tie-breaking is false. -/
theorem traverse_not_bfs_counterexample :
    GraphDB.traverse ⟨[], [], branchAdj, [], [], 0⟩ ⟨1⟩ (some [⟨1⟩]) 1
        none = [(⟨1⟩, 0), (⟨3⟩, 1), (⟨2⟩, 1)] ∧
    traverseSpecBFS branchAdj (some [⟨1⟩]) 1 none [(⟨1⟩, 0)] ∅ =
      [(⟨1⟩, 0), (⟨2⟩, 1), (⟨3⟩, 1)] ∧
    ([(⟨1⟩, 0), (⟨3⟩, 1), (⟨2⟩, 1)] : List (Rid × Nat)) ≠
      [(⟨1⟩, 0), (⟨2⟩, 1), (⟨3⟩, 1)] := by
  refine ⟨?_, ?_, by decide⟩
  · simp [GraphDB.traverse, traverseGo, branchAdj, lookupA, edgePass]
  · simp [traverseSpecBFS, branchAdj, lookupA, edgePass]

end FCDB
